import Mathlib

/-!
Verification of the UCI-SearchEngine backend (Python) against its design
specification.

Python strings are embedded as `List Char` (the repository's data is ASCII;
`str.lower` is modelled on the ASCII range).  Python `dict`s appear as
association lists in insertion order, matching CPython's documented
iteration order.  Python `float`s are embedded as exact dyadic rationals
`m · 2^e` with a correctly-rounded 53-bit significand (IEEE-754 binary64 in
its normal range), so every arithmetic step of the source is mirrored by a
rounding step here.

Embedded components:
  * `backend/app/services/simhash_service.py` (hashing, fingerprints,
    similarity),
  * `backend/app/api/crawler.py` (`_normalize_url`, `_tokenize`,
    `_build_inverted_index`, the frontier discipline of `_crawl`),
  * `backend/app/api/tokenizer.py` and `backend/app/api/search.py`,
  * `backend/app/utils/rate_limiter.py`,
together with the fragment of CPython's `urllib.parse.urlparse` that
`_normalize_url` relies on.
-/

/-! ### ASCII character helpers -/

/-- Python `str.lower` on one character, restricted to ASCII: the core
`Char.toLower` maps `A`–`Z` to `a`–`z` and fixes everything else, exactly as
CPython does on the ASCII range. -/
def pyLower (c : Char) : Char := Char.toLower c

/-- Value of `Char.toLower` on the level of code points. -/
theorem pyLower_toNat (c : Char) :
    (pyLower c).toNat =
      if 65 ≤ c.toNat ∧ c.toNat ≤ 90 then c.toNat + 32 else c.toNat := by
  unfold pyLower Char.toLower
  by_cases h : c.toNat ≥ 65 ∧ c.toNat ≤ 90
  · rw [if_pos h, if_pos ⟨h.1, h.2⟩]
    have hv : (c.toNat + 32).isValidChar := by
      left
      omega
    unfold Char.ofNat
    rw [dif_pos hv]
    rfl
  · rw [if_neg h, if_neg h]

theorem char_toNat_inj {c d : Char} (h : c.toNat = d.toNat) : c = d := by
  cases c with
  | mk cv hc =>
    cases d with
    | mk dv hd =>
      cases cv
      cases dv
      simp only [Char.toNat, UInt32.toNat] at h
      congr 1
      exact congrArg UInt32.mk (BitVec.toNat_injective h)

/-- Lowercasing is idempotent on characters. -/
theorem pyLower_pyLower (c : Char) : pyLower (pyLower c) = pyLower c := by
  apply char_toNat_inj
  rw [pyLower_toNat, pyLower_toNat (c := c)]
  by_cases h : 65 ≤ c.toNat ∧ c.toNat ≤ 90
  · rw [if_pos h, if_neg (by omega)]
  · rw [if_neg h, if_neg h]

/-- Lowercasing fixes every character that is not an uppercase letter. -/
theorem pyLower_eq_self {c : Char} (h : ¬ (65 ≤ c.toNat ∧ c.toNat ≤ 90)) :
    pyLower c = c := by
  apply char_toNat_inj
  rw [pyLower_toNat, if_neg h]

/-- ASCII letter test (Python `str.isalpha` for ASCII input). -/
def isAsciiAlpha (c : Char) : Bool :=
  decide ((65 ≤ c.toNat ∧ c.toNat ≤ 90) ∨ (97 ≤ c.toNat ∧ c.toNat ≤ 122))

/-- ASCII digit test. -/
def isAsciiDigit (c : Char) : Bool := decide (48 ≤ c.toNat ∧ c.toNat ≤ 57)

/-- Characters of the regex class `\w` (`[A-Za-z0-9_]`, ASCII model). -/
def isWordChar (c : Char) : Bool :=
  isAsciiAlpha c || isAsciiDigit c || decide (c.toNat = 95)

/-- Characters of the regex class `\s` (ASCII whitespace). -/
def isSpaceChar (c : Char) : Bool :=
  decide (c.toNat = 32 ∨ c.toNat = 9 ∨ c.toNat = 10 ∨ c.toNat = 13 ∨
    c.toNat = 11 ∨ c.toNat = 12)

/-! ### Splitting a string into maximal runs

`runsOf p l` is the list of maximal nonempty runs of characters satisfying
`p`, in order; characters not satisfying `p` act as separators.  It is the
common core of `re.findall(r"\w+", text)` and of
`text.split()`-after-substitution in the two tokenizers. -/

def runsOfAux (p : Char → Bool) : List Char → List Char → List (List Char)
  | [], acc => if acc.isEmpty then [] else [acc.reverse]
  | c :: rest, acc =>
    if p c then
      runsOfAux p rest (c :: acc)
    else
      if acc.isEmpty then runsOfAux p rest [] else acc.reverse :: runsOfAux p rest []

def runsOf (p : Char → Bool) (l : List Char) : List (List Char) :=
  runsOfAux p l []

/-! ### `simhash_service.py` -/

/-- `ord(word[i]) - ord("a") + 1` (on the already lowercased word). -/
def letterVal (c : Char) : Int := (c.toNat : Int) - 97 + 1

/-- `ascii_rep %= mod` with `mod = 4095`; Python `%` on a positive modulus
is the euclidean remainder, i.e. `Int.emod`. -/
def asciiRep (c : Char) : Nat := ((letterVal c) % 4095).toNat

/-- The numeric hash accumulated by `_generate_hash`:
`hash += ascii_rep * (base ** len(word) % mod)` over the lowered word;
note that the accumulated `hash` itself is never reduced `% mod`. -/
def hashVal (word : List Char) : Nat :=
  let w := word.map pyLower
  w.foldl (fun h c => h + asciiRep c * (37 ^ w.length % 4095)) 0

/-- `"{0:012b}".format(n)`: binary digits, most significant first,
left-padded with zeros to a width of (at least) 12. -/
def format012b (n : Nat) : List Char :=
  let s := Nat.toDigits 2 n
  List.replicate (12 - s.length) '0' ++ s

/-- `_generate_hash(word)` — returns the formatted binary string. -/
def generateHash (word : List Char) : List Char := format012b (hashVal word)

/-- `int(c)` for a digit character, as used on the characters of the hash
string (`'0'` ↦ 0, `'1'` ↦ 1). -/
def charDigitVal (c : Char) : Nat := c.toNat - 48

/-- First-match lookup in an association list, with default (the Python
`dict` read `token_freq[token]`; keys are unique in a dict). -/
def lookupD (l : List (List Char × Nat)) (k : List Char) (d : Nat) : Nat :=
  match l with
  | [] => d
  | (k₁, v) :: rest => if k₁ = k then v else lookupD rest k d

/-- `generate_fingerprint(token_freq)` embedded operationally:
build `hash_dict`, accumulate the twelve signed sums, assemble the
fingerprint string character by character. -/
def generate_fingerprint (token_freq : List (List Char × Nat)) : List Char :=
  let hash_dict := token_freq.map (fun p => (p.1, generateHash p.1))
  let summing_weights := (List.range 12).map (fun i =>
    hash_dict.foldl (fun acc p =>
      let m : Int := if charDigitVal (p.2.getD i '0') ≠ 0 then 1 else -1
      acc + m * (lookupD token_freq p.1 0 : Int)) 0)
  summing_weights.foldl (fun fp v => fp ++ [if 0 < v then '1' else '0']) []

/-- `calc_similarity`'s matching-position count: positions `0 ≤ i < 12`
where the two fingerprints agree. -/
def similarCount (f1 f2 : List Char) : Nat :=
  ((List.range 12).filter (fun i => f1.getD i ' ' = f2.getD i ' ')).length

/-! ### Python floats as exact dyadic rationals

A CPython `float` is an IEEE-754 binary64 value; every arithmetic operation
of the embedded code rounds its exact result to the nearest representable
value (ties to even).  All values arising in this repository are well inside
the normal range, so a float is represented exactly as `m · 2^e` with
`2^52 ≤ |m| < 2^53` (or `0`), and each operation is embedded as the exact
rational operation followed by `roundToFloat` / `roundDyadic`. -/

structure PyFloat where
  m : Int
  e : Int
deriving DecidableEq, Repr

/-- `⌊log₂ n⌋` (0 for `n = 0`), via structural recursion on a fuel bound so
that it reduces inside the kernel. -/
def log2Fuel : Nat → Nat → Nat
  | 0, _ => 0
  | fuel + 1, n => if 2 ≤ n then log2Fuel fuel (n / 2) + 1 else 0

def floorLog2 (n : Nat) : Nat := log2Fuel n n

/-- Round the rational `n / d` (`d > 0`) to the nearest binary64 value,
ties to even.  (Exact for all values of magnitude above `2^-400`, which
covers everything the embedded code produces.) -/
def roundToFloat (n d : Int) : PyFloat :=
  if n = 0 then ⟨0, 0⟩
  else
    let a := n.natAbs
    let b := d.natAbs
    let t : Int := (floorLog2 (a * 2 ^ 400 / b) : Int) - 400
    let k : Int := 52 - t
    let A := if 0 ≤ k then a * 2 ^ k.toNat else a
    let B := if 0 ≤ k then b else b * 2 ^ (-k).toNat
    let m0 := A / B
    let r := A % B
    let m1 :=
      if 2 * r < B then m0
      else if B < 2 * r then m0 + 1
      else if m0 % 2 = 0 then m0 else m0 + 1
    let sgn : Int := if (n < 0) = (d < 0) then 1 else -1
    if m1 = 2 ^ 53 then ⟨sgn * 2 ^ 52, t - 51⟩ else ⟨sgn * m1, t - 52⟩

/-- Round the exact dyadic `M · 2^e` to binary64. -/
def roundDyadic (M : Int) (e : Int) : PyFloat :=
  if 0 ≤ e then roundToFloat (M * 2 ^ e.toNat) 1 else roundToFloat M (2 ^ (-e).toNat)

/-- Float addition (exact sum, then one rounding). -/
def pfAdd (x y : PyFloat) : PyFloat :=
  let e := min x.e y.e
  roundDyadic (x.m * 2 ^ (x.e - e).toNat + y.m * 2 ^ (y.e - e).toNat) e

/-- Float multiplication (exact product, then one rounding). -/
def pfMul (x y : PyFloat) : PyFloat := roundDyadic (x.m * y.m) (x.e + y.e)

/-- Python `a / b` on integers: true division, correctly rounded. -/
def pfDivInt (a b : Int) : PyFloat := roundToFloat a b

/-- The float denoted by a small integer literal (exactly representable). -/
def pfOfNat (n : Nat) : PyFloat := roundToFloat n 1

/-- Comparison of float values (`<=` on the exact dyadics they denote). -/
def pfLe (x y : PyFloat) : Bool :=
  let e := min x.e y.e
  decide (x.m * 2 ^ (x.e - e).toNat ≤ y.m * 2 ^ (y.e - e).toNat)

/-- Comparison of float values (`<` on the exact dyadics they denote). -/
def pfLt (x y : PyFloat) : Bool :=
  let e := min x.e y.e
  decide (x.m * 2 ^ (x.e - e).toNat < y.m * 2 ^ (y.e - e).toNat)

/-- The exact rational value of an embedded float. -/
def pfToRat (x : PyFloat) : ℚ :=
  if 0 ≤ x.e then (x.m : ℚ) * 2 ^ x.e.toNat else (x.m : ℚ) / 2 ^ (-x.e).toNat

/-- The float written `0.96` in the source (nearest binary64 to 96/100). -/
def defaultThreshold : PyFloat := roundToFloat 96 100

/-- `calc_similarity(f1, f2, threshold)`:
`(similar_count / 12) >= threshold` — an int/int true division followed by
a float comparison. -/
def calc_similarity (f1 f2 : List Char) (threshold : PyFloat) : Bool :=
  pfLe threshold (roundToFloat (similarCount f1 f2) 12)

/-! ### Claim-side fingerprint algorithms (from the specification's words) -/

/-- The hash the specification describes: a polynomial rolling hash with
base 37 and modulus 4095 over the letter values
`ascii(lower(c)) - ascii('a') + 1` — so always a 12-bit value. -/
def rollingHash (word : List Char) : Nat :=
  ((word.map pyLower).foldl (fun h c => (h * 37 + letterVal c) % 4095) 0).toNat

/-- Bit `i` (most significant first, 12-bit string) of the rolling hash. -/
def rollingBit (w : List Char) (i : Nat) : Bool :=
  (format012b (rollingHash w)).getD i '0' = '1'

/-- The fingerprint the claim describes: signed frequency sums over the
12-bit rolling-hash bits. -/
def specC1Fingerprint (tf : List (List Char × Nat)) : List Char :=
  (List.range 12).map (fun i =>
    if 0 < tf.foldl
        (fun s p => s + (if rollingBit p.1 i then (p.2 : Int) else -(p.2 : Int))) 0
    then '1' else '0')

/-- What the code actually hashes with (denotational form): the sum of the
letter values (each reduced mod 4095) of the lowered word, multiplied by
`37^len mod 4095`, and *not* reduced mod 4095. -/
def codeHash (w : List Char) : Nat :=
  (((w.map pyLower).map asciiRep).sum) * (37 ^ w.length % 4095)

/-- Bit `i` of the code's hash, read from the binary string padded to at
least 12 characters (so for hashes above 4095 these are the *top* bits). -/
def codeBit (w : List Char) (i : Nat) : Bool :=
  (format012b (codeHash w)).getD i '0' = '1'

/-- The amended fingerprint algorithm (denotational form of the code). -/
def amendedC1Fingerprint (tf : List (List Char × Nat)) : List Char :=
  (List.range 12).map (fun i =>
    if 0 < tf.foldl
        (fun s p => s + (if codeBit p.1 i then (p.2 : Int) else -(p.2 : Int))) 0
    then '1' else '0')

/-! ### Generic list lemmas used below -/

theorem foldl_add_eq {α : Type} {M : Type} [AddCommMonoid M] (f : α → M) :
    ∀ (l : List α) (a : M), l.foldl (fun acc x => acc + f x) a = a + (l.map f).sum := by
  intro l
  induction l with
  | nil => intro a; simp
  | cons x xs ih => intro a; simp [ih, add_assoc]

theorem foldl_append_map {α β : Type} (g : α → β) :
    ∀ (l : List α) (acc : List β),
      l.foldl (fun fp v => fp ++ [g v]) acc = acc ++ l.map g := by
  intro l
  induction l with
  | nil => intro acc; simp
  | cons x xs ih => intro acc; simp [ih]

/-! ### Facts about the binary formatting -/

theorem toDigitsCore_mem :
    ∀ (fuel n : Nat) (acc : List Char), (∀ c ∈ acc, c = '0' ∨ c = '1') →
      ∀ c ∈ Nat.toDigitsCore 2 fuel n acc, c = '0' ∨ c = '1' := by
  intro fuel
  induction fuel with
  | zero =>
    intro n acc hacc
    simpa [Nat.toDigitsCore] using hacc
  | succ fuel ih =>
    intro n acc hacc c hc
    have hd : (n % 2).digitChar = '0' ∨ (n % 2).digitChar = '1' := by
      have h2 : n % 2 = 0 ∨ n % 2 = 1 := by omega
      rcases h2 with h2 | h2 <;> rw [h2]
      · left
        rfl
      · right
        rfl
    have hacc2 : ∀ x ∈ (n % 2).digitChar :: acc, x = '0' ∨ x = '1' := by
      intro x hx
      rcases List.mem_cons.mp hx with hx | hx
      · subst hx
        exact hd
      · exact hacc x hx
    rw [Nat.toDigitsCore] at hc
    by_cases hz : n / 2 = 0
    · rw [if_pos hz] at hc
      exact hacc2 c hc
    · rw [if_neg hz] at hc
      exact ih (n / 2) _ hacc2 c hc

theorem format012b_mem (n : Nat) : ∀ c ∈ format012b n, c = '0' ∨ c = '1' := by
  intro c hc
  unfold format012b at hc
  rcases List.mem_append.mp hc with hc | hc
  · left
    exact (List.mem_replicate.mp hc).2
  · exact toDigitsCore_mem (n + 1) n [] (by simp) c hc

theorem format012b_length (n : Nat) : 12 ≤ (format012b n).length := by
  unfold format012b
  simp only [List.length_append, List.length_replicate]
  omega

/-! ### Dictionary lookup -/

theorem lookupD_eq :
    ∀ (l : List (List Char × Nat)), (l.map Prod.fst).Nodup →
      ∀ {k : List Char} {v : Nat}, (k, v) ∈ l → lookupD l k 0 = v := by
  intro l
  induction l with
  | nil => intro _ k v hm; cases hm
  | cons p rest ih =>
    intro hnd k v hm
    rw [List.map_cons] at hnd
    have hnd' := List.nodup_cons.mp hnd
    rcases List.mem_cons.mp hm with he | hm'
    · cases p with
      | mk k₁ v₁ =>
        cases he
        simp [lookupD]
    · cases p with
      | mk k₁ v₁ =>
        have hk : k₁ ≠ k := by
          intro hcontra
          exact hnd'.1 (hcontra ▸ List.mem_map.mpr ⟨(k, v), hm', rfl⟩)
        simp only [lookupD, if_neg hk]
        exact ih hnd'.2 hm'

/-! ### The code's hash in closed form -/

theorem hashVal_eq_codeHash (w : List Char) : hashVal w = codeHash w := by
  unfold hashVal codeHash
  rw [foldl_add_eq (fun c => asciiRep c * (37 ^ (w.map pyLower).length % 4095))]
  rw [List.sum_map_mul_right]
  simp [List.length_map]

theorem generateHash_multiplier (w : List Char) (i : Nat) :
    (if charDigitVal ((generateHash w).getD i '0') ≠ 0 then (1 : Int) else -1) =
      (if codeBit w i then 1 else -1) := by
  have hw : generateHash w = format012b (codeHash w) := by
    unfold generateHash
    rw [hashVal_eq_codeHash]
  rw [hw]
  have hmem : (format012b (codeHash w)).getD i '0' = '0' ∨
      (format012b (codeHash w)).getD i '0' = '1' := by
    rcases lt_or_le i (format012b (codeHash w)).length with hi | hi
    · rw [List.getD_eq_getElem _ _ hi]
      exact format012b_mem _ _ (List.getElem_mem hi)
    · rw [List.getD_eq_default _ _ hi]
      left
      rfl
  rcases hmem with h0 | h0 <;> simp only [codeBit, h0] <;> decide

/-- `generate_fingerprint` written as a map over the twelve positions. -/
theorem generate_fingerprint_eq (tf : List (List Char × Nat)) :
    generate_fingerprint tf =
      ((List.range 12).map (fun i =>
        tf.foldl (fun acc p =>
          acc + (if charDigitVal ((generateHash p.1).getD i '0') ≠ 0 then (1 : Int) else -1)
            * (lookupD tf p.1 0 : Int)) 0)).map
        (fun v => if 0 < v then '1' else '0') := by
  unfold generate_fingerprint
  rw [foldl_append_map]
  simp only [List.nil_append]
  congr 1
  apply List.map_congr_left
  intro i _
  rw [List.foldl_map]

set_option maxRecDepth 8000

/-- C1 (counterexample).  On the single-token frequency map `{"zz": 1}` the
code's fingerprint differs from the fingerprint prescribed by the claim's
algorithm (12-bit polynomial rolling hash, base 37, modulus 4095): the
code's accumulated hash for `"zz"` is 71188, which is not a 12-bit value,
and the fingerprint is built from the top 12 bits of its 17-bit binary
representation. -/
theorem C1_fingerprint_counterexample :
    generate_fingerprint [(("zz").toList, 1)] ≠ specC1Fingerprint [(("zz").toList, 1)] ∧
      generate_fingerprint [(("zz").toList, 1)] = ("100010110000").toList ∧
      specC1Fingerprint [(("zz").toList, 1)] = ("001111011100").toList ∧
      hashVal (("zz").toList) = 71188 ∧ 4095 < hashVal (("zz").toList) := by
  refine ⟨by decide, by decide, by decide, by decide, by decide⟩

/-- C1 (amended).  For every token-frequency map (distinct keys, as in a
Python dict), `generate_fingerprint` returns the 12-bit signature obtained
as follows: each token is hashed to
`(sum of (ascii(lower(c)) - ascii('a') + 1 mod 4095) over its characters) *
(37^len mod 4095)` — *not* reduced modulo 4095 — the hash is written in
binary padded to at least 12 digits, and bit `i` of the fingerprint is 1
iff the signed frequency sum over the tokens' digit `i` (most significant
first; `+freq` if the digit is 1, `-freq` otherwise) is positive. -/
theorem C1_fingerprint_amended (tf : List (List Char × Nat))
    (h : (tf.map Prod.fst).Nodup) :
    generate_fingerprint tf = amendedC1Fingerprint tf := by
  rw [generate_fingerprint_eq]
  unfold amendedC1Fingerprint
  rw [List.map_map]
  apply List.map_congr_left
  intro i _
  simp only [Function.comp_apply]
  simp only [foldl_add_eq]
  congr 2
  simp only [zero_add]
  congr 1
  apply List.map_congr_left
  intro p hp
  rw [generateHash_multiplier]
  rw [lookupD_eq tf h (k := p.1) (v := p.2) (by simpa using hp)]
  by_cases hb : codeBit p.1 i <;> simp [hb]

/-- Witness for the amended C1 theorem at the concrete map `{"zz": 1}`. -/
theorem C1_fingerprint_amended_witness :
    generate_fingerprint [(("zz").toList, 1)] =
      amendedC1Fingerprint [(("zz").toList, 1)] :=
  C1_fingerprint_amended [(("zz").toList, 1)] (by decide)

/-- C5.  At the default threshold 0.96 (embedded as the binary64 value the
literal `0.96` denotes), `calc_similarity` on two 12-character fingerprints
returns `True` exactly when all 12 positions agree, i.e. when the
fingerprints are equal: `11/12` is already below the threshold. -/
theorem C5_similarity_iff_equal (f1 f2 : List Char)
    (h1 : f1.length = 12) (h2 : f2.length = 12) :
    calc_similarity f1 f2 defaultThreshold = true ↔ f1 = f2 := by
  have hle : similarCount f1 f2 ≤ 12 := by
    have h := List.length_filter_le
      (fun i => decide (f1.getD i ' ' = f2.getD i ' ')) (List.range 12)
    simpa [similarCount] using h
  have key : ∀ c : Fin 13,
      (pfLe defaultThreshold (roundToFloat (c : Nat) 12) = true) ↔ (c : Nat) = 12 := by
    decide
  have hcalc : calc_similarity f1 f2 defaultThreshold = true ↔
      similarCount f1 f2 = 12 := by
    have h := key ⟨similarCount f1 f2, by omega⟩
    simpa [calc_similarity] using h
  rw [hcalc]
  constructor
  · intro h12
    have hall : ∀ i ∈ List.range 12, f1.getD i ' ' = f2.getD i ' ' := by
      by_contra hex
      push_neg at hex
      obtain ⟨i, hi, hne⟩ := hex
      have hlt : (((List.range 12)).filter
          (fun i => decide (f1.getD i ' ' = f2.getD i ' '))).length < 12 := by
        have h := List.length_filter_lt_length_iff_exists
          (p := fun i => decide (f1.getD i ' ' = f2.getD i ' '))
          (l := List.range 12) |>.mpr ⟨i, hi, by simpa using hne⟩
        simpa using h
      have : similarCount f1 f2 < 12 := by simpa [similarCount] using hlt
      omega
    apply List.ext_getElem (h1.trans h2.symm)
    intro n hn1 hn2
    have hn : n < 12 := h1 ▸ hn1
    have h := hall n (List.mem_range.mpr hn)
    rwa [List.getD_eq_getElem _ _ hn1, List.getD_eq_getElem _ _ hn2] at h
  · rintro rfl
    unfold similarCount
    rw [List.filter_eq_self.mpr (by intro a _; simp)]
    simp

/-- Witness for C5 at a concrete pair of equal 12-bit fingerprints. -/
theorem C5_similarity_witness :
    calc_similarity (("101010101010").toList) (("101010101010").toList)
      defaultThreshold = true :=
  (C5_similarity_iff_equal (("101010101010").toList) (("101010101010").toList)
    (by decide) (by decide)).mpr rfl

/-- C10.  Every fingerprint has exactly 12 characters, each `'0'` or `'1'`,
even when a token's hash value needs more than 12 bits (as for `"zz"`), and
the empty frequency map yields the all-zero fingerprint. -/
theorem C10_fingerprint_shape :
    (∀ tf : List (List Char × Nat), (generate_fingerprint tf).length = 12 ∧
      ∀ c ∈ generate_fingerprint tf, c = '0' ∨ c = '1') ∧
      generate_fingerprint [] = ("000000000000").toList ∧
      2 ^ 12 ≤ hashVal (("zz").toList) := by
  refine ⟨fun tf => ⟨?_, ?_⟩, by decide, by decide⟩
  · rw [generate_fingerprint_eq]
    simp
  · intro c hc
    rw [generate_fingerprint_eq] at hc
    rcases List.mem_map.mp hc with ⟨v, -, rfl⟩
    by_cases h : 0 < v <;> simp [h]

/-- Witness instantiating the universally quantified part of C10. -/
theorem C10_fingerprint_shape_witness :
    (generate_fingerprint [(("zz").toList, 1)]).length = 12 :=
  (C10_fingerprint_shape.1 [(("zz").toList, 1)]).1

/-! ### `utils/rate_limiter.py`

`RateLimiter.wait_if_needed` and `RateLimiter.should_process` store
`time.time()` — a `float` — in `self.last_request_time[domain]`, while
`get_wait_time` computes `datetime.now() - last_time`.  Subtracting a float
from a `datetime.datetime` is unsupported in Python and raises `TypeError`.
The embedding keeps the dynamic types: a stored value is a `PyVal`, and
binary subtraction is partial exactly as in Python. -/

/-- Negation and subtraction of embedded floats (exact, then rounded). -/
def pfNeg (x : PyFloat) : PyFloat := ⟨-x.m, x.e⟩

def pfSub (x y : PyFloat) : PyFloat := pfAdd x (pfNeg y)

/-- A dynamically-typed Python value as used by the rate limiter: a float
(epoch seconds) or a `datetime.datetime` (represented by its epoch
seconds). -/
inductive PyVal where
  | float (v : PyFloat)
  | datetime (v : PyFloat)
deriving DecidableEq, Repr

/-- Python truthiness for these values (`0.0` is falsy; `datetime` objects
are always truthy). -/
def pyTruthy : PyVal → Bool
  | .float v => decide (v.m ≠ 0)
  | .datetime _ => true

def typeErrorMsg : List Char := ("TypeError").toList

/-- Python binary `-` on these values: `float - float` works,
`datetime - datetime` yields a timedelta (kept as its seconds, the only
way the code uses it); the mixed cases raise `TypeError`. -/
def pySub : PyVal → PyVal → Except (List Char) PyVal
  | .float a, .float b => .ok (.float (pfSub a b))
  | .datetime a, .datetime b => .ok (.float (pfSub a b))
  | _, _ => .error typeErrorMsg

/-- Write to a Python dict: overwrite the existing entry in place, or
append a new one. -/
def setKey (l : List (List Char × PyVal)) (k : List Char) (v : PyVal) :
    List (List Char × PyVal) :=
  match l with
  | [] => [(k, v)]
  | (k₁, v₁) :: rest =>
    if k₁ = k then (k₁, v) :: rest else (k₁, v₁) :: setKey rest k v

/-- `dict.get(k)` (first match). -/
def dictGet (l : List (List Char × PyVal)) (k : List Char) : Option PyVal :=
  match l with
  | [] => none
  | (k₁, v₁) :: rest => if k₁ = k then some v₁ else dictGet rest k

structure RateLimiter where
  min_interval : PyFloat
  last_request_time : List (List Char × PyVal)
deriving DecidableEq, Repr

/-- Float division (exact quotient of the two dyadics, then rounded). -/
def pfDivF (x y : PyFloat) : PyFloat :=
  let e0 := min x.e y.e
  roundToFloat (x.m * 2 ^ (x.e - e0).toNat) (y.m * 2 ^ (y.e - e0).toNat)

/-- `RateLimiter(requests_per_second)`: `min_interval = 1.0 / rps`. -/
def RateLimiter.init (rps : PyFloat) : RateLimiter :=
  ⟨pfDivF (pfOfNat 1) rps, []⟩

/-- `should_process(domain)`: compare `time.time() - last` against the
interval; on `True`, record the current time (a float). -/
def should_process (rl : RateLimiter) (domain : List Char) (now : PyFloat) :
    Except (List Char) (Bool × RateLimiter) := do
  let last := (dictGet rl.last_request_time domain).getD (.float ⟨0, 0⟩)
  let diff ← pySub (.float now) last
  match diff with
  | .float d =>
    if pfLt d rl.min_interval then .ok (false, rl)
    else .ok (true, { rl with last_request_time := setKey rl.last_request_time domain (.float now) })
  | .datetime _ => .error typeErrorMsg

/-- `wait_if_needed(domain)`: after the (state-irrelevant) sleep, store the
post-sleep `time.time()` — `tstore`, a float — under the domain. -/
def wait_if_needed (rl : RateLimiter) (domain : List Char) (now tstore : PyFloat) :
    Except (List Char) RateLimiter := do
  let last := (dictGet rl.last_request_time domain).getD (.float ⟨0, 0⟩)
  let _ ← pySub (.float now) last
  .ok { rl with last_request_time := setKey rl.last_request_time domain (.float tstore) }

/-- `get_wait_time(domain)`: `now` is `datetime.now()`; the subtraction
`now - last_time` is the source line that computes `time_since_last`. -/
def get_wait_time (rl : RateLimiter) (nowDt : PyFloat) (domain : List Char) :
    Except (List Char) PyFloat := do
  match dictGet rl.last_request_time domain with
  | none => .ok ⟨0, 0⟩
  | some last =>
    if pyTruthy last = false then .ok ⟨0, 0⟩
    else do
      let diff ← pySub (.datetime nowDt) last
      match diff with
      | .float t =>
        let w := pfSub rl.min_interval t
        .ok (if pfLt w ⟨0, 0⟩ then ⟨0, 0⟩ else w)
      | .datetime _ => .error typeErrorMsg

theorem dictGet_setKey_same (l : List (List Char × PyVal)) (k : List Char) (v : PyVal) :
    dictGet (setKey l k v) k = some v := by
  induction l with
  | nil => simp [setKey, dictGet]
  | cons p rest ih =>
    cases p with
    | mk k₁ v₁ =>
      by_cases hk : k₁ = k
      · simp [setKey, dictGet, hk]
      · simp [setKey, dictGet, hk, ih]

/-- C9.  Once a last-request time has been recorded for a domain — by
`wait_if_needed` or by a `should_process` call that returned `True`, both
of which store `time.time()` as a float — `get_wait_time` on that domain
does not return a wait time: it raises `TypeError`, because it subtracts
the stored float from `datetime.now()`.  (`tstore.m ≠ 0` says the recorded
epoch time is nonzero, which `time.time()` always is.) -/
theorem C9_get_wait_time_raises (rl rl₁ : RateLimiter) (domain : List Char)
    (now tstore nowDt : PyFloat) (hm : tstore.m ≠ 0)
    (hw : wait_if_needed rl domain now tstore = .ok rl₁) :
    get_wait_time rl₁ nowDt domain = .error typeErrorMsg ∧
    (∀ rl₂ : RateLimiter, should_process rl domain tstore = .ok (true, rl₂) →
      get_wait_time rl₂ nowDt domain = .error typeErrorMsg) := by
  have hend : ∀ rlx : RateLimiter,
      rlx.last_request_time = setKey rl.last_request_time domain (.float tstore) →
      get_wait_time rlx nowDt domain = .error typeErrorMsg := by
    intro rlx hx
    simp only [get_wait_time, hx, dictGet_setKey_same]
    simp [pyTruthy, hm, pySub, Except.bind, Bind.bind]
  constructor
  · apply hend
    simp only [wait_if_needed] at hw
    rcases hsub : pySub (.float now)
        ((dictGet rl.last_request_time domain).getD (.float ⟨0, 0⟩)) with e | v <;>
      rw [hsub] at hw <;> simp [Except.bind, Bind.bind] at hw
    rw [← hw]
  · intro rl₂ hsp
    apply hend
    simp only [should_process] at hsp
    rcases hsub : pySub (.float tstore)
        ((dictGet rl.last_request_time domain).getD (.float ⟨0, 0⟩)) with e | v <;>
      rw [hsub] at hsp <;> simp [Except.bind, Bind.bind] at hsp
    rcases v with v | v
    · by_cases hlt : pfLt v rl.min_interval = true <;> simp [hlt] at hsp
      rw [← hsp]
    · simp at hsp

/-- Witness for C9: after `wait_if_needed` records an epoch time for
`ics.uci.edu`, `get_wait_time` on that domain raises `TypeError`. -/
theorem C9_get_wait_time_raises_witness :
    get_wait_time
      { min_interval := (RateLimiter.init (pfOfNat 1)).min_interval,
        last_request_time :=
          [((("ics.uci.edu").toList), PyVal.float (pfOfNat 1700000000))] }
      (pfOfNat 1700000001) (("ics.uci.edu").toList) = .error typeErrorMsg :=
  (C9_get_wait_time_raises (RateLimiter.init (pfOfNat 1)) _ (("ics.uci.edu").toList)
    (pfOfNat 1700000000) (pfOfNat 1700000000) (pfOfNat 1700000001)
    (by decide) (by rfl)).1

/-! ### The frontier discipline of `CrawlerService._crawl`

The main loop runs `while self.to_visit and is_crawler_running():` and takes
`url = self.to_visit.pop(0)` — the *head* of the list.  (A URL already in
`visited`/`failed` is then skipped by `continue`, but it has been removed
from the frontier all the same.)  New URLs discovered in an iteration are
appended at the *tail*, guarded by `if new_url not in self.to_visit:`.
`runFrontier` runs this queue discipline over an arbitrary schedule of loop
iterations (each `deq` is one pop of the loop, each `enq us` the enqueue
block of one iteration with `us` the filtered `new_urls`). -/

/-- One pop of the main loop, subject to the loop guard. -/
def crawlDequeue (running : Bool) (q : List (List Char)) :
    Option (List Char × List (List Char)) :=
  if running then
    match q with
    | [] => none
    | u :: rest => some (u, rest)
  else none

/-- `if new_url not in self.to_visit: self.to_visit.append(new_url)`. -/
def appendIfNew (q : List (List Char)) (u : List Char) : List (List Char) :=
  if u ∈ q then q else q ++ [u]

def enqueueAll (q : List (List Char)) (us : List (List Char)) : List (List Char) :=
  us.foldl appendIfNew q

inductive CrawlOp where
  | deq
  | enq (us : List (List Char))

/-- Run a schedule of loop iterations; returns the final frontier and the
URLs removed from it, in removal order. -/
def runFrontier (running : Bool) : List CrawlOp → List (List Char) →
    List (List Char) × List (List Char)
  | [], q => (q, [])
  | .deq :: ops, q =>
    match crawlDequeue running q with
    | none => runFrontier running ops q
    | some (u, q') =>
      let r := runFrontier running ops q'
      (r.1, u :: r.2)
  | .enq us :: ops, q => runFrontier running ops (enqueueAll q us)

theorem enqueueAll_suffix (us : List (List Char)) :
    ∀ q : List (List Char), ∃ D, enqueueAll q us = q ++ D := by
  induction us with
  | nil => intro q; exact ⟨[], by simp [enqueueAll]⟩
  | cons u us ih =>
    intro q
    have ha : appendIfNew q u = q ∨ appendIfNew q u = q ++ [u] := by
      unfold appendIfNew
      by_cases hu : u ∈ q
      · left
        rw [if_pos hu]
      · right
        rw [if_neg hu]
    have hstep : enqueueAll q (u :: us) = enqueueAll (appendIfNew q u) us := by
      simp [enqueueAll]
    obtain ⟨D, hD⟩ := ih (appendIfNew q u)
    rcases ha with ha | ha
    · exact ⟨D, by rw [hstep, hD, ha]⟩
    · exact ⟨[u] ++ D, by rw [hstep, hD, ha, List.append_assoc]⟩

/-- C4.  The main loop's frontier is a FIFO queue: over any schedule of
loop iterations, the sequence of URLs removed from the frontier followed by
the URLs still in it equals the initial frontier followed by the accepted
enqueues in arrival order.  In particular every removal (which happens only
while the run flag is set and the frontier is non-empty) takes the
earliest-enqueued URL still present: the frontier is always a contiguous
suffix of the arrival order. -/
theorem C4_frontier_fifo (running : Bool) (ops : List CrawlOp) :
    ∀ q₀ : List (List Char), ∃ E : List (List Char),
      (runFrontier running ops q₀).2 ++ (runFrontier running ops q₀).1 = q₀ ++ E := by
  induction ops with
  | nil => intro q₀; exact ⟨[], by simp [runFrontier]⟩
  | cons op ops ih =>
    intro q₀
    cases op with
    | deq =>
      by_cases hr : running = true
      · cases q₀ with
        | nil =>
          obtain ⟨E, hE⟩ := ih []
          refine ⟨E, ?_⟩
          simp only [hr] at hE
          simpa [runFrontier, crawlDequeue, hr] using hE
        | cons u q' =>
          obtain ⟨E, hE⟩ := ih q'
          refine ⟨E, ?_⟩
          simp only [hr] at hE
          simpa [runFrontier, crawlDequeue, hr] using hE
      · obtain ⟨E, hE⟩ := ih q₀
        refine ⟨E, ?_⟩
        simp only [Bool.not_eq_true] at hr
        simp only [hr] at hE
        simpa [runFrontier, crawlDequeue, hr] using hE
    | enq us =>
      obtain ⟨D, hD⟩ := enqueueAll_suffix us q₀
      obtain ⟨E, hE⟩ := ih (enqueueAll q₀ us)
      refine ⟨D ++ E, ?_⟩
      simp only [runFrontier]
      rw [hE, hD, List.append_assoc]

/-! ### `CrawlerService._tokenize` and `_build_inverted_index` -/

/-- `_tokenize`: `[word.lower() for word in re.findall(r"\w+", text)]`. -/
def crawlerTokenize (text : List Char) : List (List Char) :=
  (runsOf isWordChar text).map (List.map pyLower)

/-- `term_frequencies[token] = term_frequencies.get(token, 0) + 1` on an
insertion-ordered dict. -/
def bumpKey : List (List Char × Nat) → List Char → List (List Char × Nat)
  | [], k => [(k, 1)]
  | (k₁, v) :: rest, k =>
    if k₁ = k then (k₁, v + 1) :: rest else (k₁, v) :: bumpKey rest k

def termFrequencies (tokens : List (List Char)) : List (List Char × Nat) :=
  tokens.foldl bumpKey []

/-- A row of the `inverted_index` table. -/
structure IndexEntry where
  term_id : Nat
  document_id : Nat
  term_frequency : Nat
  tf_idf : PyFloat
deriving DecidableEq, Repr

/-- The database state `_build_inverted_index` reads and writes: document
ids, the `terms` table (id, term) with its autoincrement counter, and the
`inverted_index` table in insertion order. -/
structure CrawlDB where
  documents : List Nat
  terms : List (Nat × List Char)
  nextTermId : Nat
  index : List IndexEntry
deriving DecidableEq, Repr

def lookupTermId (terms : List (Nat × List Char)) (tok : List Char) : Option Nat :=
  match terms with
  | [] => none
  | (i, s) :: rest => if s = tok then some i else lookupTermId rest tok

/-- `select(Term).where(Term.term == token)`, creating the row (with the
autoincrement id) when absent. -/
def getOrCreateTerm (db : CrawlDB) (tok : List Char) : Nat × CrawlDB :=
  match lookupTermId db.terms tok with
  | some i => (i, db)
  | none => (db.nextTermId,
      { db with terms := db.terms ++ [(db.nextTermId, tok)],
                nextTermId := db.nextTermId + 1 })

/-- Python `x or 1` on a count. -/
def orOne (n : Nat) : Nat := if n = 0 then 1 else n

/-- `_build_inverted_index(doc_id, text)`: tokenize, count frequencies,
then for each distinct term compute `tf = frequency / total_terms` (float
division), `df = len(entries for the term) or 1`,
`idf = 1 + total_docs / df`, `tf_idf = tf * idf`, and *append* a new index
entry — existing entries for the same (term, document) are not removed. -/
def buildInvertedIndex (docId : Nat) (text : List Char) (db : CrawlDB) : CrawlDB :=
  let tokens := crawlerTokenize text
  let tfs := termFrequencies tokens
  let total_terms := tokens.length
  let total_docs := orOne db.documents.length
  tfs.foldl (fun db1 p =>
    let r := getOrCreateTerm db1 p.1
    let tf := pfDivInt p.2 total_terms
    let df := orOne ((r.2.index.filter (fun en => en.term_id = r.1)).length)
    let idf := pfAdd (pfOfNat 1) (pfDivInt total_docs df)
    let tf_idf := pfMul tf idf
    { r.2 with index := r.2.index ++ [⟨r.1, docId, p.2, tf_idf⟩] }) db

/-- C2 (failing run).  Indexing document 1 with the text `"hello"` twice —
the second run models a re-index of the same document — leaves *two* index
entries for the pair (term `hello`, document 1): `_build_inverted_index`
only ever inserts, it never deletes or overwrites the existing entry. -/
theorem C2_reindex_duplicates_entries :
    ((buildInvertedIndex 1 (("hello").toList)
        (buildInvertedIndex 1 (("hello").toList) ⟨[1], [], 1, []⟩)).index.filter
      (fun e => e.term_id = 1 ∧ e.document_id = 1)).length = 2 := by
  decide

/-- The df the claim speaks about: the number of *existing* index entries
for the term (0 when the term itself does not exist yet). -/
def dfOf (db : CrawlDB) (tok : List Char) : Nat :=
  match lookupTermId db.terms tok with
  | some tid => (db.index.filter (fun en => en.term_id = tid)).length
  | none => 0

/-- The weight formula of the claim, with each arithmetic operation carried
out in binary64: `tf = freq/total`, `idf = 1 + N/df`, `weight = tf*idf`. -/
def claimWeight (freq total N df : Nat) : PyFloat :=
  pfMul (pfDivInt freq total) (pfAdd (pfOfNat 1) (pfDivInt N (orOne df)))

/-- C6 (counterexample).  Index document 1 with text `"a b c"` into a store
holding exactly one document and an empty index: the entry produced for
term `a` has `freq = 1`, `total = 3`, `N = 1`, `df = 1`, and its stored
weight is the binary64 value `6004799503160661 · 2^-53`, which is *not* the
exact rational `tf · idf = (1/3) · (1 + 1/1) = 2/3`: the arithmetic is
floating point, not exact rational arithmetic. -/
theorem C6_weight_counterexample :
    ((buildInvertedIndex 1 (("a b c").toList) ⟨[1], [], 1, []⟩).index.map
        (fun e => e.tf_idf)).head? = some ⟨6004799503160661, -53⟩ ∧
      pfToRat ⟨6004799503160661, -53⟩ ≠ ((1 : ℚ) / 3) * (1 + (1 : ℚ) / 1) := by
  constructor
  · decide
  · simp only [pfToRat]
    norm_num [Int.toNat]

/-! ### Stability lemmas for the index-building loop -/

theorem lookupTermId_append_ne (i : Nat) (s k : List Char) (h : s ≠ k) :
    ∀ ts : List (Nat × List Char),
      lookupTermId (ts ++ [(i, s)]) k = lookupTermId ts k := by
  intro ts
  induction ts with
  | nil => simp [lookupTermId, h]
  | cons q rest ih =>
    cases q with
    | mk j t =>
      by_cases ht : t = k <;> simp [lookupTermId, ht, ih]

theorem lookupTermId_mem :
    ∀ (ts : List (Nat × List Char)) (k : List Char) (i : Nat),
      lookupTermId ts k = some i → (i, k) ∈ ts := by
  intro ts
  induction ts with
  | nil => intro k i h; cases h
  | cons q rest ih =>
    intro k i h
    cases q with
    | mk j t =>
      by_cases ht : t = k
      · simp [lookupTermId, ht] at h
        subst ht
        subst h
        exact List.mem_cons_self _ _
      · simp only [lookupTermId, if_neg ht] at h
        exact List.mem_cons_of_mem _ (ih k i h)

theorem termIds_unique_string :
    ∀ (ts : List (Nat × List Char)), (ts.map Prod.fst).Nodup →
      ∀ {i : Nat} {s₁ s₂ : List Char}, (i, s₁) ∈ ts → (i, s₂) ∈ ts → s₁ = s₂ := by
  intro ts
  induction ts with
  | nil => intro _ i s₁ s₂ h; cases h
  | cons q rest ih =>
    intro hnd i s₁ s₂ h1 h2
    rw [List.map_cons] at hnd
    have hnd' := List.nodup_cons.mp hnd
    cases q with
    | mk j t =>
      rcases List.mem_cons.mp h1 with he1 | hm1 <;> rcases List.mem_cons.mp h2 with he2 | hm2
      · cases he1
        cases he2
        rfl
      · cases he1
        exact absurd (List.mem_map.mpr ⟨(i, s₂), hm2, rfl⟩) hnd'.1
      · cases he2
        exact absurd (List.mem_map.mpr ⟨(i, s₁), hm1, rfl⟩) hnd'.1
      · exact ih hnd'.2 hm1 hm2

/-- The well-formedness the real database guarantees: index entries point
at existing term ids, all ids are below the autoincrement counter, and ids
are unique. -/
def DBInv (db : CrawlDB) : Prop :=
  (∀ e ∈ db.index, e.term_id < db.nextTermId) ∧
  (∀ p ∈ db.terms, p.1 < db.nextTermId) ∧
  (db.terms.map Prod.fst).Nodup

/-- The df count the loop body computes for a token (before `or 1`). -/
def dfStep (db : CrawlDB) (tok : List Char) : Nat :=
  let r := getOrCreateTerm db tok
  (r.2.index.filter (fun en => en.term_id = r.1)).length

/-- One iteration of the `_build_inverted_index` loop. -/
def indexStep (docId totalT totalD : Nat) (db1 : CrawlDB) (p : List Char × Nat) :
    CrawlDB :=
  let r := getOrCreateTerm db1 p.1
  let tf := pfDivInt p.2 totalT
  let df := orOne ((r.2.index.filter (fun en => en.term_id = r.1)).length)
  let idf := pfAdd (pfOfNat 1) (pfDivInt totalD df)
  let tf_idf := pfMul tf idf
  { r.2 with index := r.2.index ++ [⟨r.1, docId, p.2, tf_idf⟩] }

theorem buildInvertedIndex_eq_foldl (docId : Nat) (text : List Char) (db : CrawlDB) :
    buildInvertedIndex docId text db =
      (termFrequencies (crawlerTokenize text)).foldl
        (indexStep docId (crawlerTokenize text).length (orOne db.documents.length)) db := rfl

theorem getOrCreateTerm_index (db : CrawlDB) (tok : List Char) :
    (getOrCreateTerm db tok).2.index = db.index := by
  unfold getOrCreateTerm
  cases h : lookupTermId db.terms tok <;> simp

theorem indexStep_index (docId totalT totalD : Nat) (db1 : CrawlDB) (p : List Char × Nat) :
    (indexStep docId totalT totalD db1 p).index =
      db1.index ++ [⟨(getOrCreateTerm db1 p.1).1, docId, p.2,
        claimWeight p.2 totalT totalD (dfStep db1 p.1)⟩] := by
  simp [indexStep, claimWeight, dfStep, getOrCreateTerm_index]

theorem getOrCreateTerm_some {db : CrawlDB} {tok : List Char} {tid : Nat}
    (h : lookupTermId db.terms tok = some tid) :
    getOrCreateTerm db tok = (tid, db) := by
  simp [getOrCreateTerm, h]

theorem getOrCreateTerm_none {db : CrawlDB} {tok : List Char}
    (h : lookupTermId db.terms tok = none) :
    getOrCreateTerm db tok = (db.nextTermId,
      { db with terms := db.terms ++ [(db.nextTermId, tok)],
                nextTermId := db.nextTermId + 1 }) := by
  simp [getOrCreateTerm, h]

theorem lookupTermId_lt {db : CrawlDB} (hinv : DBInv db) {tok : List Char} {tid : Nat}
    (h : lookupTermId db.terms tok = some tid) : tid < db.nextTermId :=
  hinv.2.1 _ (lookupTermId_mem _ _ _ h)

theorem filter_append_single_ne (l : List IndexEntry) (en₀ : IndexEntry) (tid : Nat)
    (h : en₀.term_id ≠ tid) :
    ((l ++ [en₀]).filter (fun en => en.term_id = tid)).length =
      (l.filter (fun en => en.term_id = tid)).length := by
  rw [List.filter_append]
  have : [en₀].filter (fun en => en.term_id = tid) = [] := by
    simp [List.filter, h]
  rw [this]
  simp

theorem filter_nil_of_lt (l : List IndexEntry) (n : Nat) (h : ∀ e ∈ l, e.term_id < n) :
    (l.filter (fun en => en.term_id = n)).length = 0 := by
  rw [List.length_eq_zero]
  apply List.filter_eq_nil_iff.mpr
  intro e hme
  simp only [decide_eq_true_eq]
  exact Nat.ne_of_lt (h e hme)

theorem indexStep_inv (docId tT tD : Nat) (db1 : CrawlDB) (p : List Char × Nat)
    (h : DBInv db1) : DBInv (indexStep docId tT tD db1 p) := by
  obtain ⟨hc, hd, he⟩ := h
  rcases hp : lookupTermId db1.terms p.1 with _ | tid₀
  · simp only [indexStep, getOrCreateTerm_none hp]
    refine ⟨?_, ?_, ?_⟩
    · intro e hemem
      rcases List.mem_append.mp hemem with hm | hm
      · exact Nat.lt_succ_of_lt (hc e hm)
      · simp at hm
        subst hm
        exact Nat.lt_succ_self _
    · intro q hq
      rcases List.mem_append.mp hq with hm | hm
      · exact Nat.lt_succ_of_lt (hd q hm)
      · simp at hm
        subst hm
        exact Nat.lt_succ_self _
    · rw [List.map_append]
      rw [List.nodup_append]
      refine ⟨he, by simp, ?_⟩
      intro a ha hb
      simp at hb
      subst hb
      rcases List.mem_map.mp ha with ⟨q, hq, hqa⟩
      exact absurd (hqa ▸ hd q hq) (lt_irrefl _)
  · simp only [indexStep, getOrCreateTerm_some hp]
    refine ⟨?_, hd, he⟩
    intro e hemem
    rcases List.mem_append.mp hemem with hm | hm
    · exact hc e hm
    · simp at hm
      subst hm
      exact lookupTermId_lt ⟨hc, hd, he⟩ hp

theorem dfStep_of_lookup_some {db : CrawlDB} {k : List Char} {tk : Nat}
    (h : lookupTermId db.terms k = some tk) :
    dfStep db k = (db.index.filter (fun en => en.term_id = tk)).length := by
  simp only [dfStep, getOrCreateTerm_some h]

theorem dfStep_of_lookup_none {db : CrawlDB} {k : List Char}
    (h : lookupTermId db.terms k = none) :
    dfStep db k = (db.index.filter (fun en => en.term_id = db.nextTermId)).length := by
  simp only [dfStep, getOrCreateTerm_none h]

theorem indexStep_terms_none {db1 : CrawlDB} {p : List Char × Nat}
    (docId tT tD : Nat) (hp : lookupTermId db1.terms p.1 = none) :
    (indexStep docId tT tD db1 p).terms = db1.terms ++ [(db1.nextTermId, p.1)] := by
  simp [indexStep, getOrCreateTerm_none hp]

theorem indexStep_terms_some {db1 : CrawlDB} {p : List Char × Nat} {tid₀ : Nat}
    (docId tT tD : Nat) (hp : lookupTermId db1.terms p.1 = some tid₀) :
    (indexStep docId tT tD db1 p).terms = db1.terms := by
  simp [indexStep, getOrCreateTerm_some hp]

theorem indexStep_next_none {db1 : CrawlDB} {p : List Char × Nat}
    (docId tT tD : Nat) (hp : lookupTermId db1.terms p.1 = none) :
    (indexStep docId tT tD db1 p).nextTermId = db1.nextTermId + 1 := by
  simp [indexStep, getOrCreateTerm_none hp]

theorem indexStep_next_some {db1 : CrawlDB} {p : List Char × Nat} {tid₀ : Nat}
    (docId tT tD : Nat) (hp : lookupTermId db1.terms p.1 = some tid₀) :
    (indexStep docId tT tD db1 p).nextTermId = db1.nextTermId := by
  simp [indexStep, getOrCreateTerm_some hp]

theorem dfStep_indexStep (docId tT tD : Nat) (db1 : CrawlDB) (p : List Char × Nat)
    (k : List Char) (hinv : DBInv db1) (hne : k ≠ p.1) :
    dfStep (indexStep docId tT tD db1 p) k = dfStep db1 k := by
  obtain ⟨hc, hd, he⟩ := hinv
  have hidx := indexStep_index docId tT tD db1 p
  rcases hp : lookupTermId db1.terms p.1 with _ | tid₀
  · -- fresh term row for `p.1`
    have htid : (getOrCreateTerm db1 p.1).1 = db1.nextTermId := by
      rw [getOrCreateTerm_none hp]
    rcases hk : lookupTermId db1.terms k with _ | tk
    · have hk2 : lookupTermId (indexStep docId tT tD db1 p).terms k = none := by
        rw [indexStep_terms_none docId tT tD hp,
          lookupTermId_append_ne _ _ _ (fun hcontra => hne hcontra.symm)]
        exact hk
      rw [dfStep_of_lookup_none hk2, dfStep_of_lookup_none hk,
        indexStep_next_none docId tT tD hp, hidx]
      rw [filter_nil_of_lt _ _ (by
        intro e hme
        rcases List.mem_append.mp hme with hm | hm
        · exact Nat.lt_succ_of_lt (hc e hm)
        · simp only [List.mem_singleton] at hm
          subst hm
          simp only [htid]
          exact Nat.lt_succ_self _)]
      rw [filter_nil_of_lt _ _ hc]
    · have htk : tk < db1.nextTermId := lookupTermId_lt ⟨hc, hd, he⟩ hk
      have hk2 : lookupTermId (indexStep docId tT tD db1 p).terms k = some tk := by
        rw [indexStep_terms_none docId tT tD hp,
          lookupTermId_append_ne _ _ _ (fun hcontra => hne hcontra.symm)]
        exact hk
      rw [dfStep_of_lookup_some hk2, dfStep_of_lookup_some hk, hidx]
      apply filter_append_single_ne
      simp only [htid]
      exact Nat.ne_of_gt htk
  · -- `p.1` reuses term row `tid₀`
    have htid₀ : tid₀ < db1.nextTermId := lookupTermId_lt ⟨hc, hd, he⟩ hp
    have htid : (getOrCreateTerm db1 p.1).1 = tid₀ := by
      rw [getOrCreateTerm_some hp]
    rcases hk : lookupTermId db1.terms k with _ | tk
    · have hk2 : lookupTermId (indexStep docId tT tD db1 p).terms k = none := by
        rw [indexStep_terms_some docId tT tD hp]
        exact hk
      rw [dfStep_of_lookup_none hk2, dfStep_of_lookup_none hk,
        indexStep_next_some docId tT tD hp, hidx]
      rw [filter_nil_of_lt _ _ (by
        intro e hme
        rcases List.mem_append.mp hme with hm | hm
        · exact hc e hm
        · simp only [List.mem_singleton] at hm
          subst hm
          simp only [htid]
          exact htid₀)]
      rw [filter_nil_of_lt _ _ hc]
    · have hmem₀ : (tid₀, p.1) ∈ db1.terms := lookupTermId_mem _ _ _ hp
      have hmemk : (tk, k) ∈ db1.terms := lookupTermId_mem _ _ _ hk
      have hne₀ : tid₀ ≠ tk := by
        intro hcontra
        subst hcontra
        exact hne (termIds_unique_string _ he hmemk hmem₀)
      have hk2 : lookupTermId (indexStep docId tT tD db1 p).terms k = some tk := by
        rw [indexStep_terms_some docId tT tD hp]
        exact hk
      rw [dfStep_of_lookup_some hk2, dfStep_of_lookup_some hk, hidx]
      apply filter_append_single_ne
      simp only [htid]
      exact hne₀

theorem indexLoop_mono (docId tT tD : Nat) :
    ∀ (pairs : List (List Char × Nat)) (db1 : CrawlDB),
      ∃ added, (pairs.foldl (indexStep docId tT tD) db1).index = db1.index ++ added := by
  intro pairs
  induction pairs with
  | nil => intro db1; exact ⟨[], by simp⟩
  | cons p rest ih =>
    intro db1
    obtain ⟨added, hadded⟩ := ih (indexStep docId tT tD db1 p)
    refine ⟨[⟨(getOrCreateTerm db1 p.1).1, docId, p.2,
      claimWeight p.2 tT tD (dfStep db1 p.1)⟩] ++ added, ?_⟩
    rw [List.foldl_cons, hadded, indexStep_index, List.append_assoc]

theorem indexLoop_spec (docId tT tD : Nat) (F : List Char → Nat) :
    ∀ (pairs : List (List Char × Nat)) (db1 : CrawlDB),
      (pairs.map Prod.fst).Nodup → DBInv db1 →
      (∀ k ∈ pairs.map Prod.fst, dfStep db1 k = F k) →
      (((pairs.foldl (indexStep docId tT tD) db1).index).drop db1.index.length).map
          (fun e => (e.document_id, e.term_frequency, e.tf_idf)) =
        pairs.map (fun p => (docId, p.2, claimWeight p.2 tT tD (F p.1))) := by
  intro pairs
  induction pairs with
  | nil =>
    intro db1 _ _ _
    simp
  | cons p rest ih =>
    intro db1 hnd hinv hdf
    rw [List.map_cons] at hnd
    have hnd' := List.nodup_cons.mp hnd
    have hinv2 := indexStep_inv docId tT tD db1 p hinv
    have hdf2 : ∀ k ∈ rest.map Prod.fst, dfStep (indexStep docId tT tD db1 p) k = F k := by
      intro k hk
      have hkne : k ≠ p.1 := by
        intro hcontra
        exact hnd'.1 (hcontra ▸ hk)
      rw [dfStep_indexStep docId tT tD db1 p k hinv hkne]
      exact hdf k (List.mem_cons_of_mem _ hk)
    have hrec := ih (indexStep docId tT tD db1 p) hnd'.2 hinv2 hdf2
    obtain ⟨added, hadded⟩ := indexLoop_mono docId tT tD rest (indexStep docId tT tD db1 p)
    rw [List.foldl_cons, hadded, indexStep_index, List.append_assoc, List.drop_left]
    rw [hadded, indexStep_index, List.drop_left] at hrec
    simp only [List.map_cons, List.map_append]
    rw [← hrec]
    simp only [List.map_cons, List.map_nil, List.singleton_append]
    congr 2
    rw [hdf p.1 (List.mem_cons_self _ _)]

theorem bumpKey_keys (k : List Char) :
    ∀ l : List (List Char × Nat),
      (bumpKey l k).map Prod.fst =
        if k ∈ l.map Prod.fst then l.map Prod.fst else l.map Prod.fst ++ [k] := by
  intro l
  induction l with
  | nil => simp [bumpKey]
  | cons q rest ih =>
    cases q with
    | mk k₁ v =>
      by_cases hk : k₁ = k
      · subst hk
        simp [bumpKey]
      · have hne : ¬ (k = k₁) := fun hcontra => hk hcontra.symm
        by_cases hmem : k ∈ rest.map Prod.fst <;>
          simp [bumpKey, hk, hne, hmem, ih]

theorem termFrequencies_keys_nodup (tokens : List (List Char)) :
    ((termFrequencies tokens).map Prod.fst).Nodup := by
  suffices h : ∀ acc : List (List Char × Nat), (acc.map Prod.fst).Nodup →
      ((tokens.foldl bumpKey acc).map Prod.fst).Nodup by
    exact h [] (by simp)
  induction tokens with
  | nil => intro acc hacc; simpa using hacc
  | cons t rest ih =>
    intro acc hacc
    rw [List.foldl_cons]
    apply ih
    rw [bumpKey_keys]
    by_cases hmem : t ∈ acc.map Prod.fst
    · rw [if_pos hmem]
      exact hacc
    · rw [if_neg hmem]
      rw [List.nodup_append]
      exact ⟨hacc, by simp, by simpa [List.disjoint_right] using hmem⟩

theorem bumpKey_lookup (t k : List Char) :
    ∀ l : List (List Char × Nat),
      lookupD (bumpKey l t) k 0 =
        if k = t then lookupD l k 0 + 1 else lookupD l k 0 := by
  intro l
  induction l with
  | nil =>
    by_cases hk : k = t
    · subst hk
      simp [bumpKey, lookupD]
    · have : ¬ (t = k) := fun hcontra => hk hcontra.symm
      simp [bumpKey, lookupD, hk, this]
  | cons q rest ih =>
    cases q with
    | mk k₁ v =>
      by_cases h1 : k₁ = t
      · subst h1
        by_cases h2 : k₁ = k
        · subst h2
          simp [bumpKey, lookupD]
        · have hkt : ¬ (k = k₁) := fun hcontra => h2 hcontra.symm
          simp [bumpKey, lookupD, h2, hkt]
      · by_cases h2 : k₁ = k
        · subst h2
          have hkt : ¬ (k₁ = t) := h1
          simp [bumpKey, lookupD, h1, hkt]
        · simp [bumpKey, lookupD, h1, h2, ih]

theorem termFrequencies_lookup (k : List Char) :
    ∀ (tokens : List (List Char)) (acc : List (List Char × Nat)),
      lookupD (tokens.foldl bumpKey acc) k 0 = lookupD acc k 0 + tokens.count k := by
  intro tokens
  induction tokens with
  | nil => intro acc; simp [lookupD]
  | cons t rest ih =>
    intro acc
    rw [List.foldl_cons, ih (bumpKey acc t), bumpKey_lookup, List.count_cons]
    by_cases hk : k = t
    · subst hk
      simp
      omega
    · have hbt : ¬ (k == t) = true := by simpa using hk
      have htk : ¬ (t = k) := fun hcontra => hk hcontra.symm
      simp [hk, hbt, htk]

theorem termFrequencies_count (tokens : List (List Char)) :
    ∀ p ∈ termFrequencies tokens, p.2 = tokens.count p.1 := by
  intro p hp
  have h1 := lookupD_eq (termFrequencies tokens) (termFrequencies_keys_nodup tokens)
    (k := p.1) (v := p.2) (by simpa using hp)
  have h2 := termFrequencies_lookup p.1 tokens []
  simp only [termFrequencies] at h1
  rw [h1] at h2
  simpa [lookupD] using h2

theorem dfStep_eq_dfOf (db : CrawlDB) (hinv : DBInv db) (k : List Char) :
    dfStep db k = dfOf db k := by
  rcases hk : lookupTermId db.terms k with _ | tk
  · rw [dfStep_of_lookup_none hk]
    unfold dfOf
    rw [hk]
    exact filter_nil_of_lt _ _ hinv.1
  · rw [dfStep_of_lookup_some hk]
    unfold dfOf
    rw [hk]

/-- C6 (amended).  For every document, text and well-formed store, the
entries `_build_inverted_index` appends are exactly one per distinct term,
in first-occurrence order, carrying
`weight = fl(fl(freq/total) * fl(1 + fl(N/df)))` — the claim's formula
`tf·idf` with `tf = occurrences/total_tokens`,
`df = existing index entries for the term (or 1)` and
`N = total document count (or 1)`, but computed in IEEE-754 binary64
floating point (each operation correctly rounded), not in exact rational
arithmetic; and each pair's frequency is the token's occurrence count. -/
theorem C6_weight_amended (docId : Nat) (text : List Char) (db : CrawlDB)
    (hinv : DBInv db) :
    ((((buildInvertedIndex docId text db).index).drop db.index.length).map
        (fun e => (e.document_id, e.term_frequency, e.tf_idf)) =
      (termFrequencies (crawlerTokenize text)).map
        (fun p => (docId, p.2,
          claimWeight p.2 (crawlerTokenize text).length
            (orOne db.documents.length) (dfOf db p.1)))) ∧
      ∀ p ∈ termFrequencies (crawlerTokenize text),
        p.2 = (crawlerTokenize text).count p.1 := by
  constructor
  · rw [buildInvertedIndex_eq_foldl]
    apply indexLoop_spec
    · exact termFrequencies_keys_nodup _
    · exact hinv
    · intro k _
      exact dfStep_eq_dfOf db hinv k
  · exact termFrequencies_count _

/-- Witness for the amended C6 theorem on the concrete store with one
document and the text `"a b c"`. -/
theorem C6_weight_amended_witness :
    ((((buildInvertedIndex 1 (("a b c").toList) ⟨[1], [], 1, []⟩).index).drop
        (⟨[1], [], 1, []⟩ : CrawlDB).index.length).map
        (fun e => (e.document_id, e.term_frequency, e.tf_idf)) =
      (termFrequencies (crawlerTokenize (("a b c").toList))).map
        (fun p => (1, p.2,
          claimWeight p.2 (crawlerTokenize (("a b c").toList)).length
            (orOne (⟨[1], [], 1, []⟩ : CrawlDB).documents.length)
            (dfOf ⟨[1], [], 1, []⟩ p.1)))) :=
  (C6_weight_amended 1 (("a b c").toList) ⟨[1], [], 1, []⟩
    (by refine ⟨?_, ?_, ?_⟩ <;> simp)).1

/-! ### `api/tokenizer.py` and `api/search.py`

`tokenize` lowercases, replaces every character matching `[^\w\s]` by a
space, collapses `\s+` to single spaces, strips, and splits — the composite
effect is to split the lowered, substituted text at whitespace runs. -/

def tokenize (text : List Char) : List (List Char) :=
  let lowered := text.map pyLower
  let substituted := lowered.map (fun c =>
    if !(isWordChar c) && !(isSpaceChar c) then ' ' else c)
  runsOf (fun c => !(isSpaceChar c)) substituted

/-- A `documents` row as the search service reads it. -/
structure SDoc where
  id : Int
  url : List Char
  title : List Char
  text_content : Option (List Char)
deriving DecidableEq, Repr

/-- A `terms` row together with its optional `term_stats` row. -/
structure STerm where
  id : Int
  term : List Char
  stats_df : Option Int
deriving DecidableEq, Repr

/-- An `inverted_index` row as the search service reads it (the code reads
`entry.position`, a column the schema does not actually declare; it is
included here because the search code addresses it). -/
structure SEntry where
  term_id : Int
  document_id : Int
  position : Int
deriving DecidableEq, Repr

structure SearchDB where
  documents : List SDoc
  terms : List STerm
  index : List SEntry
deriving Repr

def sdbFindTerm (db : SearchDB) (t : List Char) : Option STerm :=
  db.terms.find? (fun tr => tr.term = t)

/-- `_get_document_frequency` (1 query): `term.stats.document_frequency`
when the term and its stats row exist, else 0. -/
def getDocumentFrequency (db : SearchDB) (t : List Char) : Int × Nat :=
  (match sdbFindTerm db t with
   | some tr => tr.stats_df.getD 0
   | none => 0, 1)

/-- `_get_documents_with_term`: the term query, the relationship load and
the `Document.id.in_(doc_ids)` query (3 queries when the term exists). -/
def getDocumentsWithTerm (db : SearchDB) (t : List Char) : List SDoc × Nat :=
  match sdbFindTerm db t with
  | none => ([], 1)
  | some tr =>
    let doc_ids := (db.index.filter (fun en => en.term_id = tr.id)).map
      (fun en => en.document_id)
    (db.documents.filter (fun d => d.id ∈ doc_ids), 3)

/-- `_get_term_positions` (2 queries when the term exists). -/
def getTermPositions (db : SearchDB) (t : List Char) (docId : Int) :
    List Int × Nat :=
  match sdbFindTerm db t with
  | none => ([], 1)
  | some tr =>
    ((db.index.filter (fun en => en.term_id = tr.id ∧ en.document_id = docId)).map
      (fun en => en.position), 2)

/-- Python `str.find`: index of the first occurrence, `-1` when absent. -/
def strFindAux (needle : List Char) : List Char → Int → Int
  | [], i => if needle.isEmpty then i else -1
  | c :: rest, i =>
    if needle.isPrefixOf (c :: rest) then i else strFindAux needle rest (i + 1)

def strFind (hay needle : List Char) : Int :=
  if needle.isPrefixOf hay then 0 else strFindAux needle hay 0

/-- CPython list slicing `l[s:e]` (step 1), with negative-index clamping. -/
def pySlice {α : Type} (l : List α) (s e : Int) : List α :=
  let n : Int := l.length
  let s1 := if s < 0 then max 0 (n + s) else min s n
  let e1 := if e < 0 then max 0 (n + e) else min e n
  if s1 < e1 then (l.take e1.toNat).drop s1.toNat else []

/-- `_get_snippet(text, query_terms, max_length=200)`. -/
def getSnippet (text0 : List Char) (query_terms : List (List Char)) : List Char :=
  let text := text0.map pyLower
  let qts := query_terms.map (List.map pyLower)
  let positions := (qts.map (fun t => strFind text t)).filter (fun p => p ≠ -1)
  match positions with
  | [] => pySlice text 0 200 ++ ("...").toList
  | p :: ps =>
    let start_pos : Int := max 0 (ps.foldl min p - 50)
    let end_pos : Int := min (text.length : Int) (start_pos + 200)
    let snippet := pySlice text start_pos end_pos
    let snippet := if 0 < start_pos then ("...").toList ++ snippet else snippet
    if end_pos < (text.length : Int) then snippet ++ ("...").toList else snippet

structure SearchResult where
  url : List Char
  title : List Char
  snippet : List Char
  score : PyFloat
deriving Repr

structure SearchPage where
  query : List Char
  total_results : Int
  page : Int
  per_page : Int
  total_pages : Int
  results : List SearchResult
deriving Repr

/-- Python `a / b` on ints, raising `ZeroDivisionError` on `b = 0`. -/
def pfDivIntE (a b : Int) : Except (List Char) PyFloat :=
  if b = 0 then .error (("ZeroDivisionError").toList) else .ok (roundToFloat a b)

/-- Truthiness of `doc.text_content` (None or empty string is falsy). -/
def textTruthy : Option (List Char) → Bool
  | none => false
  | some l => !l.isEmpty

/-- The candidate set `all_docs`: union of the documents containing each
query term.  (A Python `set` of ORM row objects; its iteration order is
modelled as first-insertion order, deduplicated by document id.) -/
def gatherDocs (db : SearchDB) : List (List Char) → List SDoc × Nat
  | [] => ([], 0)
  | t :: ts =>
    let r1 := getDocumentsWithTerm db t
    let r2 := gatherDocs db ts
    (r1.1 ++ r2.1.filter (fun d => !(r1.1.any (fun x => x.id = d.id))), r1.2 + r2.2)

/-- The score accumulation for one candidate document. -/
def scoreOfDoc (logF : PyFloat → PyFloat) (db : SearchDB)
    (query_terms : List (List Char)) (total_docs : Int) (doc : SDoc) :
    Except (List Char) (PyFloat × Nat) :=
  query_terms.foldlM (fun acc term => do
    let r1 := getTermPositions db term doc.id
    let tf ← if textTruthy doc.text_content then
        pfDivIntE r1.1.length (tokenize (doc.text_content.getD [])).length
      else .ok ⟨0, 0⟩
    let r2 := getDocumentFrequency db term
    let idf ← (pfDivIntE total_docs (r2.1 + 1)).map logF
    .ok (pfAdd acc.1 (pfMul tf idf), acc.2 + r1.2 + r2.2)) (⟨0, 0⟩, 0)

/-- `SearchService.search(query, page, per_page)` from `api/search.py`,
parameterised by the binary64 `np.log` (`logF`); the second component
counts the database queries performed. -/
def search (logF : PyFloat → PyFloat) (db : SearchDB) (query : List Char)
    (page per_page : Int) : Except (List Char) (SearchPage × Nat) :=
  let query_terms := tokenize query
  if query_terms.isEmpty then
    .ok ({ query := query, total_results := 0, page := page,
           per_page := per_page, total_pages := 0, results := [] }, 0)
  else do
    let gd := gatherDocs db query_terms
    let total_docs : Int := if db.documents.length = 0 then 1 else db.documents.length
    let rs ← gd.1.foldlM (fun (acc : List SearchResult × Nat) doc => do
      let sc ← scoreOfDoc logF db query_terms total_docs doc
      if pfLt ⟨0, 0⟩ sc.1 then
        .ok (acc.1 ++ [⟨doc.url, doc.title,
          getSnippet (doc.text_content.getD []) query_terms, sc.1⟩], acc.2 + sc.2)
      else
        .ok (acc.1, acc.2 + sc.2)) ([], 0)
    let sorted := rs.1.mergeSort (fun a b => pfLe b.score a.score)
    let start_idx := (page - 1) * per_page
    let end_idx := start_idx + per_page
    let paginated := pySlice sorted start_idx end_idx
    if per_page = 0 then .error (("ZeroDivisionError").toList)
    else
      .ok ({ query := query, total_results := sorted.length, page := page,
             per_page := per_page,
             total_pages := Int.fdiv ((sorted.length : Int) + per_page - 1) per_page,
             results := paginated }, gd.2 + 1 + rs.2)

/-- C8.  For every query whose tokenization is empty, every page and
per-page value, every store and every model of `np.log`, `search` returns
zero results, zero total pages and an empty result list, performing zero
database queries — it never touches the index or the document store. -/
theorem C8_empty_query_zero_page (logF : PyFloat → PyFloat) (db : SearchDB)
    (query : List Char) (page per_page : Int)
    (h : tokenize query = []) :
    search logF db query page per_page =
      .ok ({ query := query, total_results := 0, page := page,
             per_page := per_page, total_pages := 0, results := [] }, 0) := by
  unfold search
  rw [h]
  rfl

/-- Witness for C8: a punctuation-and-whitespace query on a non-empty
store. -/
theorem C8_empty_query_zero_page_witness :
    search (fun x => x)
      ⟨[⟨1, ("http://x").toList, ("t").toList, some (("body").toList)⟩], [], []⟩
      ((" .,!? ").toList) 1 10 =
      .ok ({ query := (" .,!? ").toList, total_results := 0, page := 1,
             per_page := 10, total_pages := 0, results := [] }, 0) :=
  C8_empty_query_zero_page (fun x => x) _ _ 1 10 (by decide)

/-! ### CPython `urllib.parse.urlparse` — the fragment `_normalize_url` uses

`urlsplit` first strips leading C0-control/space characters and removes
tab/CR/LF everywhere; then it splits off a scheme at the first `:` (when
the part before it is a letter followed by letters, digits, `+`, `-` or
`.`), a netloc after a leading `//` (up to the first `/`, `?` or `#`,
rejecting unbalanced square brackets with `ValueError`, here `none`), the
fragment at the first `#`, the query at the first `?`; `urlparse` finally
splits `;`-params off the last path segment. -/

def isC0OrSpace (c : Char) : Bool := decide (c.toNat ≤ 32)

def isUnsafeUrlByte (c : Char) : Bool :=
  decide (c.toNat = 9 ∨ c.toNat = 13 ∨ c.toNat = 10)

def sanitizeUrl (u : List Char) : List Char :=
  (u.dropWhile isC0OrSpace).filter (fun c => !(isUnsafeUrlByte c))

def schemeChar (c : Char) : Bool :=
  isAsciiAlpha c || isAsciiDigit c ||
    decide (c.toNat = 43 ∨ c.toNat = 45 ∨ c.toNat = 46)

def isNetlocDelim (c : Char) : Bool := decide (c = '/' ∨ c = '?' ∨ c = '#')

structure UrlParts where
  scheme : List Char
  netloc : List Char
  path : List Char
  params : List Char
  query : List Char
  fragment : List Char
deriving DecidableEq, Repr

def schemeSplit (u : List Char) : List Char × List Char :=
  let before := u.takeWhile (fun c => c ≠ ':')
  if ':' ∈ u ∧ before ≠ [] ∧ isAsciiAlpha (before.headD ' ') = true ∧
      (before.drop 1).all schemeChar = true then
    (before.map pyLower, (u.dropWhile (fun c => c ≠ ':')).drop 1)
  else
    ([], u)

def netlocSplit (u : List Char) : Option (List Char × List Char) :=
  if u.take 2 = ['/', '/'] then
    let rest := u.drop 2
    let nl := rest.takeWhile (fun c => !(isNetlocDelim c))
    let after := rest.dropWhile (fun c => !(isNetlocDelim c))
    if ('[' ∈ nl ∧ ']' ∉ nl) ∨ (']' ∈ nl ∧ '[' ∉ nl) then none
    else some (nl, after)
  else some ([], u)

/-- `url.split(sep, 1)` when `sep` occurs; `(url, "")` otherwise. -/
def splitOnFirst (sep : Char) (l : List Char) : List Char × List Char :=
  (l.takeWhile (fun c => c ≠ sep), (l.dropWhile (fun c => c ≠ sep)).drop 1)

/-- `_splitparams`, guarded by `';' in url`. -/
def splitparams (p : List Char) : List Char × List Char :=
  if ';' ∈ p then
    if '/' ∈ p then
      let lastSeg := (p.reverse.takeWhile (fun c => c ≠ '/')).reverse
      let front := (p.reverse.dropWhile (fun c => c ≠ '/')).reverse
      if ';' ∈ lastSeg then
        (front ++ lastSeg.takeWhile (fun c => c ≠ ';'),
         (lastSeg.dropWhile (fun c => c ≠ ';')).drop 1)
      else (p, [])
    else (p.takeWhile (fun c => c ≠ ';'), (p.dropWhile (fun c => c ≠ ';')).drop 1)
  else (p, [])

def urlparse (url : List Char) : Option UrlParts :=
  let u1 := sanitizeUrl url
  let s := schemeSplit u1
  match netlocSplit s.2 with
  | none => none
  | some nl =>
    let f := splitOnFirst '#' nl.2
    let q := splitOnFirst '?' f.1
    let pp := splitparams q.1
    some ⟨s.1, nl.1, pp.1, pp.2, q.2, f.2⟩

/-! ### `CrawlerService._normalize_url` from `api/crawler.py` -/

def rstripSlash (l : List Char) : List Char :=
  (l.reverse.dropWhile (fun c => c = '/')).reverse

def dynamicExts : List (List Char) := [(".php").toList, (".aspx").toList, (".jsp").toList]

def meaningfulParams : List (List Char) :=
  [("id").toList, ("article").toList, ("page").toList, ("p").toList]

/-- Python `needle in hay` on strings (substring containment). -/
def strContains (hay needle : List Char) : Bool := strFind hay needle ≠ -1

/-- The retention test of the source:
`parsed.query and (any(parsed.path.endswith(ext) for ext in [...]) or
any(param in parsed.query for param in [...]))` — note the *substring*
check `param in parsed.query`. -/
def codeRetains (p : UrlParts) : Bool :=
  !p.query.isEmpty &&
    (dynamicExts.any (fun ext => ext.isSuffixOf p.path) ||
     meaningfulParams.any (fun pr => strContains p.query pr))

def normalize_url (url : List Char) : Option (List Char) :=
  match urlparse url with
  | none => none
  | some p =>
    let normalized := (rstripSlash (p.scheme ++ ("://").toList ++ p.netloc ++ p.path)).map pyLower
    if codeRetains p then some (normalized ++ '?' :: p.query)
    else some normalized

/-! ### The claim's version of query retention (parameter *names*) -/

def splitAllAux (sep : Char) : List Char → List Char → List (List Char)
  | [], acc => [acc.reverse]
  | c :: rest, acc =>
    if c = sep then acc.reverse :: splitAllAux sep rest []
    else splitAllAux sep rest (c :: acc)

/-- `str.split(sep)` (all parts, possibly empty). -/
def splitAll (sep : Char) (l : List Char) : List (List Char) := splitAllAux sep l []

/-- Parameter names of a query string: the part before the first `=` of
each `&`-separated component. -/
def queryParamNames (q : List Char) : List (List Char) :=
  (splitAll '&' q).map (fun kv => kv.takeWhile (fun c => c ≠ '='))

/-- The retention test the claim describes: one of the meaningful
parameter names occurs *as a parameter name*, or the path ends in a
dynamic extension. -/
def specC3Retains (p : UrlParts) : Bool :=
  !p.query.isEmpty &&
    (dynamicExts.any (fun ext => ext.isSuffixOf p.path) ||
     (queryParamNames p.query).any (fun nm => meaningfulParams.any (fun pr => pr = nm)))

/-- `_normalize_url` as the claim describes it. -/
def specC3Normalize (url : List Char) : Option (List Char) :=
  match urlparse url with
  | none => none
  | some p =>
    let normalized := (rstripSlash (p.scheme ++ ("://").toList ++ p.netloc ++ p.path)).map pyLower
    if specC3Retains p then some (normalized ++ '?' :: p.query)
    else some normalized

/-- C3 (counterexample).  For `http://uci.edu/a?x=apple` the parameter
name is `x` and the path has no dynamic extension, so the claim drops the
query — but the code checks `param in parsed.query` as a *substring*, and
`"p"` occurs inside `apple`, so the code keeps it. -/
theorem C3_query_retention_counterexample :
    normalize_url (("http://uci.edu/a?x=apple").toList) =
      some (("http://uci.edu/a?x=apple").toList) ∧
    specC3Normalize (("http://uci.edu/a?x=apple").toList) =
      some (("http://uci.edu/a").toList) ∧
    normalize_url (("http://uci.edu/a?x=apple").toList) ≠
      specC3Normalize (("http://uci.edu/a?x=apple").toList) := by
  refine ⟨by decide, by decide, by decide⟩

/-- C7 (counterexample).  Normalization is not idempotent: it fails for a
URL without a scheme (`uci.edu`), for a URL with a scheme but no netloc
(`mailto:a.php?x=y`), and for a URL whose path keeps a `;` in its last
segment after the trailing slash is stripped (`http://x.com/a;b/`). -/
theorem C7_idempotence_counterexample :
    (normalize_url (("uci.edu").toList) = some (("://uci.edu").toList) ∧
      normalize_url (("://uci.edu").toList) = some (("://://uci.edu").toList) ∧
      normalize_url (("://uci.edu").toList) ≠ some (("://uci.edu").toList)) ∧
    (normalize_url (("mailto:a.php?x=y").toList) = some (("mailto://a.php?x=y").toList) ∧
      normalize_url (("mailto://a.php?x=y").toList) = some (("mailto://a.php").toList) ∧
      normalize_url (("mailto://a.php?x=y").toList) ≠ some (("mailto://a.php?x=y").toList)) ∧
    (normalize_url (("http://x.com/a;b/").toList) = some (("http://x.com/a;b").toList) ∧
      normalize_url (("http://x.com/a;b").toList) = some (("http://x.com/a").toList) ∧
      normalize_url (("http://x.com/a;b").toList) ≠ some (("http://x.com/a;b").toList)) := by
  refine ⟨⟨by decide, by decide, by decide⟩, ⟨by decide, by decide, by decide⟩,
    ⟨by decide, by decide, by decide⟩⟩

/-! ### List and character lemmas for the URL proofs -/

theorem tw_append (P : Char → Bool) :
    ∀ (xs ys : List Char), (∀ x ∈ xs, P x = true) →
      (xs ++ ys).takeWhile P = xs ++ ys.takeWhile P := by
  intro xs
  induction xs with
  | nil => intro ys _; simp
  | cons x xs ih =>
    intro ys hall
    have hx := hall x (List.mem_cons_self _ _)
    simp only [List.cons_append, List.takeWhile_cons, hx, if_true]
    rw [ih ys (fun a ha => hall a (List.mem_cons_of_mem _ ha))]

theorem dw_append (P : Char → Bool) :
    ∀ (xs ys : List Char), (∀ x ∈ xs, P x = true) →
      (xs ++ ys).dropWhile P = ys.dropWhile P := by
  intro xs
  induction xs with
  | nil => intro ys _; simp
  | cons x xs ih =>
    intro ys hall
    have hx := hall x (List.mem_cons_self _ _)
    simp only [List.cons_append, List.dropWhile_cons, hx, if_true]
    exact ih ys (fun a ha => hall a (List.mem_cons_of_mem _ ha))

theorem dropWhile_headD_false (P : Char → Bool) :
    ∀ l : List Char, l.dropWhile P ≠ [] → P ((l.dropWhile P).headD ' ') = false := by
  intro l
  induction l with
  | nil => intro h; simp at h
  | cons x xs ih =>
    intro h
    by_cases hx : P x = true
    · rw [List.dropWhile_cons, if_pos hx] at h ⊢
      exact ih h
    · rw [List.dropWhile_cons, if_neg hx]
      simpa using hx

theorem pyLower_eq_iff_special {c d : Char}
    (hd1 : ¬ (65 ≤ d.toNat ∧ d.toNat ≤ 90)) (hd2 : ¬ (97 ≤ d.toNat ∧ d.toNat ≤ 122)) :
    pyLower c = d ↔ c = d := by
  constructor
  · intro h
    by_cases hc : 65 ≤ c.toNat ∧ c.toNat ≤ 90
    · exfalso
      have h2 : (pyLower c).toNat = c.toNat + 32 := by
        rw [pyLower_toNat, if_pos hc]
      rw [h] at h2
      exact hd2 (by omega)
    · rw [pyLower_eq_self hc] at h
      exact h
  · intro h
    subst h
    exact pyLower_eq_self hd1

theorem mem_map_pyLower_special {d : Char} (l : List Char)
    (hd1 : ¬ (65 ≤ d.toNat ∧ d.toNat ≤ 90)) (hd2 : ¬ (97 ≤ d.toNat ∧ d.toNat ≤ 122)) :
    d ∈ l.map pyLower ↔ d ∈ l := by
  simp only [List.mem_map]
  constructor
  · rintro ⟨c, hc, he⟩
    rw [pyLower_eq_iff_special hd1 hd2] at he
    exact he ▸ hc
  · intro h
    exact ⟨d, h, pyLower_eq_self hd1⟩

theorem isAsciiAlpha_pyLower {c : Char} (h : isAsciiAlpha c = true) :
    isAsciiAlpha (pyLower c) = true := by
  simp only [isAsciiAlpha, decide_eq_true_eq] at h ⊢
  rw [pyLower_toNat]
  split <;> omega

theorem schemeChar_pyLower {c : Char} (h : schemeChar c = true) :
    schemeChar (pyLower c) = true := by
  simp only [schemeChar, isAsciiAlpha, isAsciiDigit, Bool.or_eq_true,
    decide_eq_true_eq] at h ⊢
  rw [pyLower_toNat]
  split <;> omega

theorem headD_append_left {a : List Char} (b : List Char) {d : Char} (h : a ≠ []) :
    (a ++ b).headD d = a.headD d := by
  cases a with
  | nil => exact absurd rfl h
  | cons x xs => simp

/-! ### Structure of the parse results -/

theorem urlparse_some_eq {u : List Char} {p : UrlParts} (hp : urlparse u = some p) :
    ∃ nl : List Char × List Char,
      netlocSplit (schemeSplit (sanitizeUrl u)).2 = some nl ∧
      p = ⟨(schemeSplit (sanitizeUrl u)).1, nl.1,
           (splitparams (splitOnFirst '?' (splitOnFirst '#' nl.2).1).1).1,
           (splitparams (splitOnFirst '?' (splitOnFirst '#' nl.2).1).1).2,
           (splitOnFirst '?' (splitOnFirst '#' nl.2).1).2,
           (splitOnFirst '#' nl.2).2⟩ := by
  simp only [urlparse] at hp
  rcases hnl : netlocSplit (schemeSplit (sanitizeUrl u)).2 with _ | nl <;>
    rw [hnl] at hp
  · cases hp
  · exact ⟨nl, rfl, (Option.some.inj hp).symm⟩

theorem schemeSplit_fst_chars (u : List Char) :
    ∀ x ∈ (schemeSplit u).1, isAsciiAlpha x = true ∨ schemeChar x = true := by
  intro x hx
  simp only [schemeSplit] at hx
  by_cases hcond : ':' ∈ u ∧ u.takeWhile (fun c => c ≠ ':') ≠ [] ∧
      isAsciiAlpha ((u.takeWhile (fun c => c ≠ ':')).headD ' ') = true ∧
      ((u.takeWhile (fun c => c ≠ ':')).drop 1).all schemeChar = true
  · rw [if_pos hcond] at hx
    obtain ⟨c, hc, rfl⟩ := List.mem_map.mp hx
    obtain ⟨-, hne, hhead, hall⟩ := hcond
    cases hb : u.takeWhile (fun c => c ≠ ':') with
    | nil => exact absurd hb hne
    | cons b bs =>
      rw [hb] at hc hhead hall
      rcases List.mem_cons.mp hc with rfl | hc
      · left
        exact isAsciiAlpha_pyLower (by simpa using hhead)
      · right
        apply schemeChar_pyLower
        have := List.all_eq_true.mp hall
        exact this c (by simpa using hc)
  · rw [if_neg hcond] at hx
    cases hx

theorem netlocSplit_fst_not_delim {w : List Char} {nl : List Char × List Char}
    (h : netlocSplit w = some nl) :
    ∀ x ∈ nl.1, isNetlocDelim x = false := by
  intro x hx
  simp only [netlocSplit] at h
  by_cases h2 : w.take 2 = ['/', '/']
  · rw [if_pos h2] at h
    by_cases hbr : ('[' ∈ (w.drop 2).takeWhile (fun c => !(isNetlocDelim c)) ∧
        ']' ∉ (w.drop 2).takeWhile (fun c => !(isNetlocDelim c))) ∨
        (']' ∈ (w.drop 2).takeWhile (fun c => !(isNetlocDelim c)) ∧
         '[' ∉ (w.drop 2).takeWhile (fun c => !(isNetlocDelim c)))
    · rw [if_pos hbr] at h
      cases h
    · rw [if_neg hbr] at h
      cases Option.some.inj h
      have := List.mem_takeWhile_imp hx
      simpa using this
  · rw [if_neg h2] at h
    cases Option.some.inj h
    cases hx

theorem splitparams_fst_subset (p : List Char) :
    ∀ x ∈ (splitparams p).1, x ∈ p := by
  intro x hx
  simp only [splitparams] at hx
  by_cases h1 : ';' ∈ p
  · rw [if_pos h1] at hx
    by_cases h2 : '/' ∈ p
    · rw [if_pos h2] at hx
      by_cases h3 : ';' ∈ (p.reverse.takeWhile (fun c => c ≠ '/')).reverse
      · rw [if_pos h3] at hx
        rcases List.mem_append.mp hx with hm | hm
        · rw [List.mem_reverse] at hm
          have := List.dropWhile_subset (l := p.reverse) (fun c => c ≠ '/') hm
          simpa using this
        · have h4 := List.takeWhile_subset (l := (p.reverse.takeWhile (fun c => c ≠ '/')).reverse)
            (fun c => c ≠ ';') hm
          rw [List.mem_reverse] at h4
          have := List.takeWhile_subset (l := p.reverse) (fun c => c ≠ '/') h4
          simpa using this
      · rw [if_neg h3] at hx
        exact hx
    · rw [if_neg h2] at hx
      exact List.takeWhile_subset _ hx
  · rw [if_neg h1] at hx
    exact hx

theorem rstripSlash_pref (l : List Char) : rstripSlash l <+: l := by
  unfold rstripSlash
  rw [← List.reverse_suffix, List.reverse_reverse]
  exact List.dropWhile_suffix _

theorem urlparse_path_no_qmark {u : List Char} {p : UrlParts}
    (hp : urlparse u = some p) : '?' ∉ p.path := by
  obtain ⟨nl, hnl, rfl⟩ := urlparse_some_eq hp
  intro hmem
  have h1 := splitparams_fst_subset _ _ hmem
  have h2 := List.mem_takeWhile_imp h1
  simp at h2

theorem urlparse_path_no_hash {u : List Char} {p : UrlParts}
    (hp : urlparse u = some p) : '#' ∉ p.path := by
  obtain ⟨nl, hnl, rfl⟩ := urlparse_some_eq hp
  intro hmem
  have h1 := splitparams_fst_subset _ _ hmem
  have h2 := List.takeWhile_subset (l := (splitOnFirst '#' nl.2).1)
    (fun c => c ≠ '?') h1
  have h3 := List.mem_takeWhile_imp h2
  simp at h3

theorem urlparse_query_no_hash {u : List Char} {p : UrlParts}
    (hp : urlparse u = some p) : '#' ∉ p.query := by
  obtain ⟨nl, hnl, rfl⟩ := urlparse_some_eq hp
  intro hmem
  have h1 := List.drop_subset 1 ((splitOnFirst '#' nl.2).1.dropWhile (fun c => c ≠ '?')) hmem
  have h2 := List.dropWhile_subset (l := (splitOnFirst '#' nl.2).1) (fun c => c ≠ '?') h1
  have h3 := List.mem_takeWhile_imp h2
  simp at h3

/-- The normalized base string (before any retained query) never contains
`?`: the scheme's characters are letters or scheme characters, the netloc
stops at any of `/?#`, and the path lies before the query split. -/
theorem normalize_base_no_qmark {u : List Char} {p : UrlParts}
    (hp : urlparse u = some p) :
    '?' ∉ (rstripSlash (p.scheme ++ ("://").toList ++ p.netloc ++ p.path)).map pyLower := by
  intro hmem
  rw [mem_map_pyLower_special _ (by decide) (by decide)] at hmem
  have h1 := (rstripSlash_pref _).subset hmem
  rcases List.mem_append.mp h1 with h2 | h2
  · rcases List.mem_append.mp h2 with h3 | h3
    · rcases List.mem_append.mp h3 with h4 | h4
      · obtain ⟨nl, hnl, he⟩ := urlparse_some_eq hp
        have hsch : p.scheme = (schemeSplit (sanitizeUrl u)).1 := by rw [he]
        rw [hsch] at h4
        rcases schemeSplit_fst_chars _ _ h4 with h5 | h5 <;> exact absurd h5 (by decide)
      · simp at h4
    · obtain ⟨nl, hnl, he⟩ := urlparse_some_eq hp
      have hnet : p.netloc = nl.1 := by rw [he]
      rw [hnet] at h3
      have h5 := netlocSplit_fst_not_delim hnl _ h3
      exact absurd h5 (by decide)
  · exact urlparse_path_no_qmark hp h2

theorem codeRetains_iff (p : UrlParts) :
    codeRetains p = true ↔ (p.query ≠ [] ∧
      (dynamicExts.any (fun ext => ext.isSuffixOf p.path) = true ∨
       meaningfulParams.any (fun pr => strContains p.query pr) = true)) := by
  simp [codeRetains, List.isEmpty_iff]

/-- C3 (amended).  For every URL `u` that parses, the normalized result
keeps `u`'s query string — equivalently, contains a `?` — iff the query is
non-empty and either the path ends (case-sensitively) in `.php`, `.aspx`
or `.jsp`, or one of the strings `id`, `article`, `page`, `p` occurs as a
*substring* anywhere in the query (not as a parameter name); every other
query is dropped. -/
theorem C3_query_retention_amended (u : List Char) (p : UrlParts) (v : List Char)
    (hp : urlparse u = some p) (hv : normalize_url u = some v) :
    ('?' ∈ v) ↔ (p.query ≠ [] ∧
      (dynamicExts.any (fun ext => ext.isSuffixOf p.path) = true ∨
       meaningfulParams.any (fun pr => strContains p.query pr) = true)) := by
  simp only [normalize_url, hp] at hv
  by_cases hr : codeRetains p = true
  · rw [if_pos hr] at hv
    have hv2 := Option.some.inj hv
    constructor
    · intro _
      exact (codeRetains_iff p).mp hr
    · intro _
      rw [← hv2]
      exact List.mem_append.mpr (Or.inr (List.mem_cons_self _ _))
  · rw [if_neg hr] at hv
    have hv2 := Option.some.inj hv
    constructor
    · intro hmem
      rw [← hv2] at hmem
      exact absurd hmem (normalize_base_no_qmark hp)
    · intro hcond
      exact absurd ((codeRetains_iff p).mpr hcond) hr

/-- Witness for the amended C3 theorem: `http://uci.edu/a.php?z=1` keeps
its query (dynamic extension), and the iff instance holds. -/
theorem C3_query_retention_amended_witness :
    ('?' ∈ (("http://uci.edu/a.php?z=1").toList)) ↔
      ((("z=1").toList ≠ []) ∧
        (dynamicExts.any (fun ext => ext.isSuffixOf (("/a.php").toList)) = true ∨
         meaningfulParams.any (fun pr => strContains (("z=1").toList) pr) = true)) :=
  C3_query_retention_amended (("http://uci.edu/a.php?z=1").toList)
    ⟨("http").toList, ("uci.edu").toList, ("/a.php").toList, [], ("z=1").toList, []⟩
    (("http://uci.edu/a.php?z=1").toList) (by decide) (by decide)

/-! ### Idempotence of normalization (C7): helper lemmas -/

theorem headD_mem {l : List Char} {d : Char} (h : l ≠ []) : l.headD d ∈ l := by
  cases l with
  | nil => exact absurd rfl h
  | cons x xs => simp

theorem headD_irrel {l : List Char} (d₁ d₂ : Char) (h : l ≠ []) :
    l.headD d₁ = l.headD d₂ := by
  cases l with
  | nil => exact absurd rfl h
  | cons x xs => rfl

theorem headD_map_pyLower {l : List Char} (d : Char) (h : l ≠ []) :
    (l.map pyLower).headD d = pyLower (l.headD d) := by
  cases l with
  | nil => exact absurd rfl h
  | cons x xs => rfl

theorem takeWhile_headD (P : Char → Bool) (l : List Char) :
    l.takeWhile P = [] ∨ (l.takeWhile P).headD ' ' = l.headD ' ' := by
  cases l with
  | nil => left; rfl
  | cons x xs =>
    by_cases hx : P x = true
    · right
      rw [List.takeWhile_cons, if_pos hx]
      rfl
    · left
      rw [List.takeWhile_cons, if_neg hx]

theorem map_pyLower_idem (l : List Char) :
    (l.map pyLower).map pyLower = l.map pyLower := by
  rw [List.map_map]
  apply List.map_congr_left
  intro a _
  simp only [Function.comp_apply]
  exact pyLower_pyLower a

theorem dw_slash_head {l : List Char} (h : ¬ l.headD 'x' = '/') :
    l.dropWhile (fun c => c = '/') = l := by
  cases l with
  | nil => rfl
  | cons x xs =>
    rw [List.dropWhile_cons, if_neg (by simpa using h)]

theorem rstripSlash_eq_self {l : List Char} (h : ¬ l.reverse.headD 'x' = '/') :
    rstripSlash l = l := by
  unfold rstripSlash
  rw [dw_slash_head h, List.reverse_reverse]

theorem rstrip_append {xs : List Char} (ys : List Char)
    (h : ¬ xs.reverse.headD 'x' = '/') :
    rstripSlash (xs ++ ys) = xs ++ rstripSlash ys := by
  unfold rstripSlash
  rw [List.reverse_append, List.dropWhile_append]
  by_cases he : ((ys.reverse.dropWhile (fun c => c = '/'))).isEmpty = true
  · rw [if_pos he, dw_slash_head h, List.reverse_reverse]
    rw [List.isEmpty_iff] at he
    rw [he]
    simp
  · rw [if_neg he, List.reverse_append, List.reverse_reverse]

theorem rstripSlash_last (l : List Char) :
    rstripSlash l = [] ∨ ¬ (rstripSlash l).reverse.headD 'x' = '/' := by
  by_cases hd : l.reverse.dropWhile (fun c => c = '/') = []
  · left
    unfold rstripSlash
    rw [hd]
    rfl
  · right
    unfold rstripSlash
    rw [List.reverse_reverse, headD_irrel 'x' ' ' hd]
    have := dropWhile_headD_false (fun c => c = '/') l.reverse hd
    simpa using this

theorem sanitize_subset (u : List Char) : ∀ x ∈ sanitizeUrl u, x ∈ u := by
  intro x hx
  unfold sanitizeUrl at hx
  have h1 := (List.mem_filter.mp hx).1
  exact List.dropWhile_subset _ h1

theorem sanitize_safe (u : List Char) :
    ∀ x ∈ sanitizeUrl u, isUnsafeUrlByte x = false := by
  intro x hx
  unfold sanitizeUrl at hx
  have h1 := List.of_mem_filter hx
  simpa using h1

theorem sanitize_eq_self {l : List Char}
    (h1 : ∀ c ∈ l, isUnsafeUrlByte c = false)
    (h2 : isC0OrSpace (l.headD 'x') = false) :
    sanitizeUrl l = l := by
  unfold sanitizeUrl
  have hd : l.dropWhile isC0OrSpace = l := by
    cases l with
    | nil => rfl
    | cons x xs =>
      rw [List.headD_cons] at h2
      rw [List.dropWhile_cons, if_neg (by simp [h2])]
  rw [hd]
  apply List.filter_eq_self.mpr
  intro a ha
  simp [h1 a ha]

theorem unsafe_pyLower (c : Char) :
    isUnsafeUrlByte (pyLower c) = isUnsafeUrlByte c := by
  simp only [isUnsafeUrlByte]
  rw [pyLower_toNat]
  by_cases h : 65 ≤ c.toNat ∧ c.toNat ≤ 90
  · rw [if_pos h, decide_eq_decide]
    omega
  · rw [if_neg h]

theorem netlocDelim_pyLower (c : Char) :
    isNetlocDelim (pyLower c) = isNetlocDelim c := by
  simp only [isNetlocDelim]
  rw [decide_eq_decide]
  constructor
  · rintro (h | h | h)
    · exact Or.inl ((pyLower_eq_iff_special (by decide) (by decide)).mp h)
    · exact Or.inr (Or.inl ((pyLower_eq_iff_special (by decide) (by decide)).mp h))
    · exact Or.inr (Or.inr ((pyLower_eq_iff_special (by decide) (by decide)).mp h))
  · rintro (h | h | h)
    · exact Or.inl ((pyLower_eq_iff_special (by decide) (by decide)).mpr h)
    · exact Or.inr (Or.inl ((pyLower_eq_iff_special (by decide) (by decide)).mpr h))
    · exact Or.inr (Or.inr ((pyLower_eq_iff_special (by decide) (by decide)).mpr h))

theorem schemeclass_safe {c : Char}
    (h : isAsciiAlpha c = true ∨ schemeChar c = true) :
    isUnsafeUrlByte c = false := by
  simp only [isAsciiAlpha, schemeChar, isAsciiDigit, Bool.or_eq_true,
    decide_eq_true_eq] at h
  simp only [isUnsafeUrlByte]
  apply decide_eq_false
  omega

theorem alpha_not_c0 {c : Char} (h : isAsciiAlpha c = true) :
    isC0OrSpace c = false := by
  simp only [isAsciiAlpha, decide_eq_true_eq] at h
  simp only [isC0OrSpace]
  apply decide_eq_false
  omega

theorem not_delim_ne_slash {c : Char} (h : isNetlocDelim c = false) : ¬ c = '/' := by
  intro hc
  subst hc
  exact absurd h (by decide)

theorem splitOnFirst_not_mem (sep : Char) (l : List Char) (h : sep ∉ l) :
    splitOnFirst sep l = (l, []) := by
  unfold splitOnFirst
  have htw : l.takeWhile (fun c => c ≠ sep) = l :=
    List.takeWhile_eq_self_iff.mpr (fun x hx => by
      simp only [ne_eq, decide_eq_true_eq]
      intro he
      exact h (he ▸ hx))
  have hdw : l.dropWhile (fun c => c ≠ sep) = [] :=
    List.dropWhile_eq_nil_iff.mpr (fun x hx => by
      simp only [ne_eq, decide_eq_true_eq]
      intro he
      exact h (he ▸ hx))
  rw [htw, hdw]
  rfl

theorem splitOnFirst_append (sep : Char) (a b : List Char) (h : sep ∉ a) :
    splitOnFirst sep (a ++ sep :: b) = (a, b) := by
  unfold splitOnFirst
  have hall : ∀ x ∈ a, (fun c : Char => (decide (c ≠ sep))) x = true := by
    intro x hx
    simp only [ne_eq, decide_eq_true_eq]
    intro he
    exact h (he ▸ hx)
  have htc : (sep :: b).takeWhile (fun c => c ≠ sep) = [] := by
    rw [List.takeWhile_cons, if_neg (by simp)]
  have hdc : (sep :: b).dropWhile (fun c => c ≠ sep) = sep :: b := by
    rw [List.dropWhile_cons, if_neg (by simp)]
  rw [tw_append (fun c => c ≠ sep) a (sep :: b) hall,
      dw_append (fun c => c ≠ sep) a (sep :: b) hall, htc, hdc, List.append_nil]
  rfl

theorem splitOnFirst_fst_subset (sep : Char) (l : List Char) :
    ∀ x ∈ (splitOnFirst sep l).1, x ∈ l := by
  intro x hx
  simp only [splitOnFirst] at hx
  exact List.takeWhile_subset _ hx

theorem splitOnFirst_snd_subset (sep : Char) (l : List Char) :
    ∀ x ∈ (splitOnFirst sep l).2, x ∈ l := by
  intro x hx
  simp only [splitOnFirst] at hx
  have h1 := List.drop_subset 1 _ hx
  exact List.dropWhile_subset _ h1

theorem splitOnFirst_fst_not_sep (sep : Char) (l : List Char) :
    sep ∉ (splitOnFirst sep l).1 := by
  intro hm
  simp only [splitOnFirst] at hm
  have := List.mem_takeWhile_imp hm
  simp at this

theorem splitOnFirst_fst_headD (sep : Char) (l : List Char) :
    (splitOnFirst sep l).1 = [] ∨ (splitOnFirst sep l).1.headD ' ' = l.headD ' ' := by
  simp only [splitOnFirst]
  exact takeWhile_headD _ l

theorem splitparams_not_mem {p : List Char} (h : ';' ∉ p) :
    splitparams p = (p, []) := by
  unfold splitparams
  rw [if_neg h]

theorem schemeSplit_build (s rest : List Char) (hne : s ≠ [])
    (hh : isAsciiAlpha (s.headD ' ') = true)
    (ht : (s.drop 1).all schemeChar = true)
    (hlow : s.map pyLower = s) :
    schemeSplit (s ++ ':' :: rest) = (s, rest) := by
  have hnc : ∀ x ∈ s, (fun c : Char => (decide (c ≠ ':'))) x = true := by
    intro x hx
    simp only [ne_eq, decide_eq_true_eq]
    cases s with
    | nil => exact absurd rfl hne
    | cons a as =>
      rcases List.mem_cons.mp hx with rfl | hx2
      · intro he
        rw [List.headD_cons] at hh
        rw [he] at hh
        exact absurd hh (by decide)
      · intro he
        have h2 := List.all_eq_true.mp ht x (by simpa using hx2)
        rw [he] at h2
        exact absurd h2 (by decide)
  have htc : (':' :: rest).takeWhile (fun c => c ≠ ':') = [] := by
    rw [List.takeWhile_cons, if_neg (by simp)]
  have hdc : (':' :: rest).dropWhile (fun c => c ≠ ':') = ':' :: rest := by
    rw [List.dropWhile_cons, if_neg (by simp)]
  have htw : (s ++ ':' :: rest).takeWhile (fun c => c ≠ ':') = s := by
    rw [tw_append (fun c => c ≠ ':') s (':' :: rest) hnc, htc, List.append_nil]
  have hdw : (s ++ ':' :: rest).dropWhile (fun c => c ≠ ':') = ':' :: rest := by
    rw [dw_append (fun c => c ≠ ':') s (':' :: rest) hnc, hdc]
  have hmem : ':' ∈ s ++ ':' :: rest :=
    List.mem_append.mpr (Or.inr (List.mem_cons_self _ _))
  simp only [schemeSplit, htw, hdw]
  rw [if_pos ⟨hmem, hne, hh, ht⟩, hlow]
  rfl

theorem netlocSplit_build (n rest : List Char)
    (hchars : ∀ x ∈ n, isNetlocDelim x = false)
    (hbr : ¬ (('[' ∈ n ∧ ']' ∉ n) ∨ (']' ∈ n ∧ '[' ∉ n)))
    (hrest : rest = [] ∨ isNetlocDelim (rest.headD ' ') = true) :
    netlocSplit ('/' :: '/' :: (n ++ rest)) = some (n, rest) := by
  have hP : ∀ x ∈ n, (fun c : Char => !(isNetlocDelim c)) x = true := by
    intro x hx
    simp [hchars x hx]
  have htr : rest.takeWhile (fun c => !(isNetlocDelim c)) = [] := by
    rcases hrest with h | h
    · rw [h]
      rfl
    · cases rest with
      | nil => rfl
      | cons r rs =>
        rw [List.headD_cons] at h
        rw [List.takeWhile_cons, if_neg (by simp [h])]
  have hdr : rest.dropWhile (fun c => !(isNetlocDelim c)) = rest := by
    rcases hrest with h | h
    · rw [h]
      rfl
    · cases rest with
      | nil => rfl
      | cons r rs =>
        rw [List.headD_cons] at h
        rw [List.dropWhile_cons, if_neg (by simp [h])]
  have htw : (n ++ rest).takeWhile (fun c => !(isNetlocDelim c)) = n := by
    rw [tw_append (fun c => !(isNetlocDelim c)) n rest hP, htr, List.append_nil]
  have hdw : (n ++ rest).dropWhile (fun c => !(isNetlocDelim c)) = rest := by
    rw [dw_append (fun c => !(isNetlocDelim c)) n rest hP, hdr]
  simp only [netlocSplit, List.take_succ_cons, List.take_zero, List.drop_succ_cons,
    List.drop_zero, htw, hdw]
  rw [if_pos trivial, if_neg hbr]

theorem schemeSplit_nonempty {u : List Char} (h : (schemeSplit u).1 ≠ []) :
    u.takeWhile (fun c => c ≠ ':') ≠ [] ∧
    isAsciiAlpha ((u.takeWhile (fun c => c ≠ ':')).headD ' ') = true ∧
    ((u.takeWhile (fun c => c ≠ ':')).drop 1).all schemeChar = true ∧
    (schemeSplit u).1 = (u.takeWhile (fun c => c ≠ ':')).map pyLower ∧
    (schemeSplit u).2 = (u.dropWhile (fun c => c ≠ ':')).drop 1 := by
  by_cases hcond : ':' ∈ u ∧ u.takeWhile (fun c => c ≠ ':') ≠ [] ∧
      isAsciiAlpha ((u.takeWhile (fun c => c ≠ ':')).headD ' ') = true ∧
      ((u.takeWhile (fun c => c ≠ ':')).drop 1).all schemeChar = true
  · refine ⟨hcond.2.1, hcond.2.2.1, hcond.2.2.2, ?_, ?_⟩ <;>
      · simp only [schemeSplit]
        rw [if_pos hcond]
  · exfalso
    apply h
    simp only [schemeSplit]
    rw [if_neg hcond]

theorem schemeSplit_snd_subset (u : List Char) :
    ∀ x ∈ (schemeSplit u).2, x ∈ u := by
  intro x hx
  simp only [schemeSplit] at hx
  by_cases hcond : ':' ∈ u ∧ u.takeWhile (fun c => c ≠ ':') ≠ [] ∧
      isAsciiAlpha ((u.takeWhile (fun c => c ≠ ':')).headD ' ') = true ∧
      ((u.takeWhile (fun c => c ≠ ':')).drop 1).all schemeChar = true
  · rw [if_pos hcond] at hx
    have h1 := List.drop_subset 1 _ hx
    exact List.dropWhile_subset _ h1
  · rw [if_neg hcond] at hx
    exact hx

theorem netlocSplit_some_shape {w : List Char} {nl : List Char × List Char}
    (h : netlocSplit w = some nl) (hn : nl.1 ≠ []) :
    nl.1 = (w.drop 2).takeWhile (fun c => !(isNetlocDelim c)) ∧
    nl.2 = (w.drop 2).dropWhile (fun c => !(isNetlocDelim c)) ∧
    ¬ (('[' ∈ nl.1 ∧ ']' ∉ nl.1) ∨ (']' ∈ nl.1 ∧ '[' ∉ nl.1)) := by
  simp only [netlocSplit] at h
  by_cases h2 : w.take 2 = ['/', '/']
  · rw [if_pos h2] at h
    by_cases hbr : ('[' ∈ (w.drop 2).takeWhile (fun c => !(isNetlocDelim c)) ∧
        ']' ∉ (w.drop 2).takeWhile (fun c => !(isNetlocDelim c))) ∨
        (']' ∈ (w.drop 2).takeWhile (fun c => !(isNetlocDelim c)) ∧
         '[' ∉ (w.drop 2).takeWhile (fun c => !(isNetlocDelim c)))
    · rw [if_pos hbr] at h
      cases h
    · rw [if_neg hbr] at h
      have he := Option.some.inj h
      rw [← he]
      exact ⟨rfl, rfl, hbr⟩
  · rw [if_neg h2] at h
    have he := Option.some.inj h
    rw [← he] at hn
    exact absurd rfl hn

theorem dynExt_facts : ∀ ext ∈ dynamicExts,
    ext ≠ [] ∧ ¬ ext.reverse.headD 'x' = '/' ∧ ext.map pyLower = ext := by
  decide

/-- Re-parsing a well-formed `scheme://netloc` string built by the
normalizer: the scheme, netloc and tail come back unchanged. -/
theorem urlparse_build (s n T : List Char)
    (hs_ne : s ≠ []) (hs_head : isAsciiAlpha (s.headD ' ') = true)
    (hs_all : (s.drop 1).all schemeChar = true) (hs_low : s.map pyLower = s)
    (hs_chars : ∀ x ∈ s, isAsciiAlpha x = true ∨ schemeChar x = true)
    (hn_delim : ∀ x ∈ n, isNetlocDelim x = false)
    (hn_br : ¬ (('[' ∈ n ∧ ']' ∉ n) ∨ (']' ∈ n ∧ '[' ∉ n)))
    (hn_safe : ∀ x ∈ n, isUnsafeUrlByte x = false)
    (hT_head : T = [] ∨ isNetlocDelim (T.headD ' ') = true)
    (hT_safe : ∀ x ∈ T, isUnsafeUrlByte x = false)
    (hT_nohash : '#' ∉ T) :
    urlparse (s ++ ("://").toList ++ n ++ T) =
      some ⟨s, n, (splitparams (splitOnFirst '?' T).1).1,
            (splitparams (splitOnFirst '?' T).1).2,
            (splitOnFirst '?' T).2, []⟩ := by
  have ht : ("://").toList = [':', '/', '/'] := rfl
  have hsan : sanitizeUrl (s ++ ("://").toList ++ n ++ T) =
      s ++ ("://").toList ++ n ++ T := by
    apply sanitize_eq_self
    · intro c hc
      rcases List.mem_append.mp hc with hc | hc
      · rcases List.mem_append.mp hc with hc | hc
        · rcases List.mem_append.mp hc with hc | hc
          · exact schemeclass_safe (hs_chars c hc)
          · rw [ht] at hc
            have hck : ∀ x ∈ ([':', '/', '/'] : List Char), isUnsafeUrlByte x = false := by
              decide
            exact hck c hc
        · exact hn_safe c hc
      · exact hT_safe c hc
    · have hne1 : s ++ ("://").toList ≠ [] := by simp [hs_ne]
      have hne2 : s ++ ("://").toList ++ n ≠ [] := by simp [hs_ne]
      rw [headD_append_left T hne2, headD_append_left n hne1,
          headD_append_left (("://").toList) hs_ne, headD_irrel 'x' ' ' hs_ne]
      exact alpha_not_c0 hs_head
  have hshape : s ++ ("://").toList ++ n ++ T =
      s ++ ':' :: ('/' :: '/' :: (n ++ T)) := by
    rw [ht]
    simp [List.append_assoc]
  have hss : schemeSplit (s ++ ':' :: ('/' :: '/' :: (n ++ T))) =
      (s, '/' :: '/' :: (n ++ T)) :=
    schemeSplit_build s _ hs_ne hs_head hs_all hs_low
  have hns : netlocSplit ('/' :: '/' :: (n ++ T)) = some (n, T) :=
    netlocSplit_build n T hn_delim hn_br hT_head
  have hf : splitOnFirst '#' T = (T, []) := splitOnFirst_not_mem _ _ hT_nohash
  rw [hshape] at hsan ⊢
  simp only [urlparse, hsan, hss, hns, hf]

/-- The normalizer's base string is already a fixed point of
lower-casing and slash-stripping when built from lower-cased parts whose
last character is not a slash. -/
theorem base_fixed (s n rp : List Char)
    (hs_low : s.map pyLower = s)
    (hn_ne : n ≠ []) (hn_delim : ∀ x ∈ n, isNetlocDelim x = false)
    (hn_low : n.map pyLower = n)
    (hrp_last : rp = [] ∨ ¬ rp.reverse.headD 'x' = '/')
    (hrp_low : rp.map pyLower = rp) :
    (rstripSlash (s ++ ("://").toList ++ n ++ rp)).map pyLower
      = s ++ ("://").toList ++ n ++ rp := by
  have hlast : ¬ (s ++ ("://").toList ++ n).reverse.headD 'x' = '/' := by
    rw [List.reverse_append, headD_append_left _ (by simpa using hn_ne)]
    have hm : n.reverse.headD 'x' ∈ n := by
      have h1 := headD_mem (l := n.reverse) (d := 'x') (by simpa using hn_ne)
      simpa using h1
    exact not_delim_ne_slash (hn_delim _ hm)
  have hr : rstripSlash rp = rp := by
    rcases hrp_last with h | h
    · rw [h]
      rfl
    · exact rstripSlash_eq_self h
  have hmt : (("://").toList).map pyLower = ("://").toList := by decide
  rw [rstrip_append rp hlast, hr, List.map_append, List.map_append, List.map_append,
      hs_low, hn_low, hrp_low, hmt]

/-- A normalized URL without a retained query is a fixed point of
`normalize_url`. -/
theorem normalize_url_fixed_noq (s n rp : List Char)
    (hs_ne : s ≠ []) (hs_head : isAsciiAlpha (s.headD ' ') = true)
    (hs_all : (s.drop 1).all schemeChar = true) (hs_low : s.map pyLower = s)
    (hs_chars : ∀ x ∈ s, isAsciiAlpha x = true ∨ schemeChar x = true)
    (hn_ne : n ≠ []) (hn_delim : ∀ x ∈ n, isNetlocDelim x = false)
    (hn_br : ¬ (('[' ∈ n ∧ ']' ∉ n) ∨ (']' ∈ n ∧ '[' ∉ n)))
    (hn_safe : ∀ x ∈ n, isUnsafeUrlByte x = false) (hn_low : n.map pyLower = n)
    (hrp_head : rp = [] ∨ rp.headD ' ' = '/')
    (hrp_last : rp = [] ∨ ¬ rp.reverse.headD 'x' = '/')
    (hrp_no_qm : '?' ∉ rp) (hrp_no_hash : '#' ∉ rp) (hrp_no_semi : ';' ∉ rp)
    (hrp_safe : ∀ x ∈ rp, isUnsafeUrlByte x = false)
    (hrp_low : rp.map pyLower = rp) :
    normalize_url (s ++ ("://").toList ++ n ++ rp) =
      some (s ++ ("://").toList ++ n ++ rp) := by
  have hT_head : rp = [] ∨ isNetlocDelim (rp.headD ' ') = true := by
    rcases hrp_head with h | h
    · exact Or.inl h
    · right
      rw [h]
      decide
  have hpars := urlparse_build s n rp hs_ne hs_head hs_all hs_low hs_chars
    hn_delim hn_br hn_safe hT_head hrp_safe hrp_no_hash
  have hsp : splitOnFirst '?' rp = (rp, []) := splitOnFirst_not_mem _ _ hrp_no_qm
  have hpp : splitparams rp = (rp, []) := splitparams_not_mem hrp_no_semi
  simp only [hsp, hpp] at hpars
  simp only [normalize_url, hpars]
  have hcr : ¬ codeRetains ⟨s, n, rp, [], [], []⟩ = true := by
    simp [codeRetains]
  rw [if_neg hcr,
    base_fixed s n rp hs_low hn_ne hn_delim hn_low hrp_last hrp_low]

/-- A normalized URL whose query was retained is a fixed point of
`normalize_url`. -/
theorem normalize_url_fixed_q (s n rp q : List Char)
    (hs_ne : s ≠ []) (hs_head : isAsciiAlpha (s.headD ' ') = true)
    (hs_all : (s.drop 1).all schemeChar = true) (hs_low : s.map pyLower = s)
    (hs_chars : ∀ x ∈ s, isAsciiAlpha x = true ∨ schemeChar x = true)
    (hn_ne : n ≠ []) (hn_delim : ∀ x ∈ n, isNetlocDelim x = false)
    (hn_br : ¬ (('[' ∈ n ∧ ']' ∉ n) ∨ (']' ∈ n ∧ '[' ∉ n)))
    (hn_safe : ∀ x ∈ n, isUnsafeUrlByte x = false) (hn_low : n.map pyLower = n)
    (hrp_head : rp = [] ∨ rp.headD ' ' = '/')
    (hrp_last : rp = [] ∨ ¬ rp.reverse.headD 'x' = '/')
    (hrp_no_qm : '?' ∉ rp) (hrp_no_hash : '#' ∉ rp) (hrp_no_semi : ';' ∉ rp)
    (hrp_safe : ∀ x ∈ rp, isUnsafeUrlByte x = false)
    (hrp_low : rp.map pyLower = rp)
    (hq_ne : q ≠ []) (hq_nohash : '#' ∉ q)
    (hq_safe : ∀ x ∈ q, isUnsafeUrlByte x = false)
    (hkeep : dynamicExts.any (fun ext => ext.isSuffixOf rp) = true ∨
       meaningfulParams.any (fun pr => strContains q pr) = true) :
    normalize_url (s ++ ("://").toList ++ n ++ rp ++ '?' :: q) =
      some (s ++ ("://").toList ++ n ++ rp ++ '?' :: q) := by
  have hT_head : rp ++ '?' :: q = [] ∨
      isNetlocDelim ((rp ++ '?' :: q).headD ' ') = true := by
    rcases hrp_head with h | h
    · right
      rw [h, List.nil_append, List.headD_cons]
      decide
    · have hne : rp ≠ [] := by
        intro he
        rw [he] at h
        exact absurd h (by decide)
      right
      rw [headD_append_left _ hne, h]
      decide
  have hT_safe : ∀ x ∈ rp ++ '?' :: q, isUnsafeUrlByte x = false := by
    intro x hx
    rcases List.mem_append.mp hx with hx | hx
    · exact hrp_safe x hx
    · rcases List.mem_cons.mp hx with rfl | hx
      · decide
      · exact hq_safe x hx
  have hT_nohash : '#' ∉ rp ++ '?' :: q := by
    intro hm
    rcases List.mem_append.mp hm with hm | hm
    · exact hrp_no_hash hm
    · rcases List.mem_cons.mp hm with he | hm
      · exact absurd he (by decide)
      · exact hq_nohash hm
  have hpars := urlparse_build s n (rp ++ '?' :: q) hs_ne hs_head hs_all hs_low hs_chars
    hn_delim hn_br hn_safe hT_head hT_safe hT_nohash
  have hsp : splitOnFirst '?' (rp ++ '?' :: q) = (rp, q) :=
    splitOnFirst_append _ _ _ hrp_no_qm
  have hpp : splitparams rp = (rp, []) := splitparams_not_mem hrp_no_semi
  simp only [hsp, hpp] at hpars
  have hshape4 : s ++ ("://").toList ++ n ++ rp ++ '?' :: q
      = s ++ ("://").toList ++ n ++ (rp ++ '?' :: q) := by
    simp [List.append_assoc]
  rw [hshape4]
  simp only [normalize_url, hpars]
  have hcr : codeRetains ⟨s, n, rp, [], q, []⟩ = true := by
    simp only [codeRetains, Bool.and_eq_true]
    refine ⟨by simp [List.isEmpty_eq_false.mpr hq_ne], ?_⟩
    rcases hkeep with h | h <;> simp [h]
  rw [if_pos hcr,
    base_fixed s n rp hs_low hn_ne hn_delim hn_low hrp_last hrp_low]
  simp [List.append_assoc]

/-- C7 (amended).  For every URL `u` that the parser accepts with a
non-empty scheme and a non-empty netloc and that contains no `;`,
`_normalize_url` succeeds and its result is a fixed point: normalizing
the normalized URL returns it unchanged.  The counterexample theorem
shows each of the three hypotheses is needed. -/
theorem C7_normalize_idempotent (u : List Char) (p : UrlParts)
    (hp : urlparse u = some p) (hs : p.scheme ≠ []) (hn : p.netloc ≠ [])
    (hsemi : ';' ∉ u) :
    ∃ v, normalize_url u = some v ∧ normalize_url v = some v := by
  obtain ⟨nl, hnl, hpe⟩ := urlparse_some_eq hp
  have hsch : p.scheme = (schemeSplit (sanitizeUrl u)).1 := by rw [hpe]
  have hnet : p.netloc = nl.1 := by rw [hpe]
  have hpath : p.path = (splitparams (splitOnFirst '?' (splitOnFirst '#' nl.2).1).1).1 := by
    rw [hpe]
  have hquery : p.query = (splitOnFirst '?' (splitOnFirst '#' nl.2).1).2 := by rw [hpe]
  have hs1 : (schemeSplit (sanitizeUrl u)).1 ≠ [] := by
    rw [← hsch]
    exact hs
  obtain ⟨hb_ne, hb_head, hb_all, hb_fst, hb_snd⟩ := schemeSplit_nonempty hs1
  have hs_low : p.scheme.map pyLower = p.scheme := by
    rw [hsch, hb_fst]
    exact map_pyLower_idem _
  have hs_head : isAsciiAlpha (p.scheme.headD ' ') = true := by
    rw [hsch, hb_fst, headD_map_pyLower ' ' hb_ne]
    exact isAsciiAlpha_pyLower hb_head
  have hs_all : (p.scheme.drop 1).all schemeChar = true := by
    rw [hsch, hb_fst, ← List.map_drop]
    apply List.all_eq_true.mpr
    intro x hx
    obtain ⟨y, hy, rfl⟩ := List.mem_map.mp hx
    exact schemeChar_pyLower (List.all_eq_true.mp hb_all y hy)
  have hs_chars : ∀ x ∈ p.scheme, isAsciiAlpha x = true ∨ schemeChar x = true := by
    rw [hsch]
    exact schemeSplit_fst_chars _
  have hn1 : nl.1 ≠ [] := by
    rw [← hnet]
    exact hn
  obtain ⟨hnl1, hnl2, hbr⟩ := netlocSplit_some_shape hnl hn1
  have hn_delim : ∀ x ∈ p.netloc, isNetlocDelim x = false := by
    rw [hnet]
    exact netlocSplit_fst_not_delim hnl
  have hn_sub : ∀ x ∈ p.netloc, x ∈ sanitizeUrl u := by
    rw [hnet, hnl1]
    intro x hx
    have h1 := List.takeWhile_subset _ hx
    have h2 := List.drop_subset 2 _ h1
    exact schemeSplit_snd_subset _ _ h2
  have hn_br : ¬ (('[' ∈ p.netloc ∧ ']' ∉ p.netloc) ∨
      (']' ∈ p.netloc ∧ '[' ∉ p.netloc)) := by
    rw [hnet]
    exact hbr
  have hrest : nl.2 = [] ∨ isNetlocDelim (nl.2.headD ' ') = true := by
    by_cases he : nl.2 = []
    · exact Or.inl he
    · right
      rw [hnl2] at he ⊢
      have h1 := dropWhile_headD_false _ _ he
      simpa using h1
  have hnl2_sub : ∀ x ∈ nl.2, x ∈ sanitizeUrl u := by
    rw [hnl2]
    intro x hx
    have h1 := List.dropWhile_subset _ hx
    have h2 := List.drop_subset 2 _ h1
    exact schemeSplit_snd_subset _ _ h2
  have hf1_sub : ∀ x ∈ (splitOnFirst '#' nl.2).1, x ∈ sanitizeUrl u :=
    fun x hx => hnl2_sub x (splitOnFirst_fst_subset _ _ x hx)
  have hq1_sub : ∀ x ∈ (splitOnFirst '?' (splitOnFirst '#' nl.2).1).1,
      x ∈ sanitizeUrl u :=
    fun x hx => hf1_sub x (splitOnFirst_fst_subset _ _ x hx)
  have hq_sub : ∀ x ∈ p.query, x ∈ sanitizeUrl u := by
    rw [hquery]
    exact fun x hx => hf1_sub x (splitOnFirst_snd_subset _ _ x hx)
  have hq1_nosemi : ';' ∉ (splitOnFirst '?' (splitOnFirst '#' nl.2).1).1 := by
    intro hm
    exact hsemi (sanitize_subset u ';' (hq1_sub ';' hm))
  have hpath_eq : p.path = (splitOnFirst '?' (splitOnFirst '#' nl.2).1).1 := by
    rw [hpath, splitparams_not_mem hq1_nosemi]
  have hc1 := splitOnFirst_fst_headD '?' (splitOnFirst '#' nl.2).1
  have hc2 := splitOnFirst_fst_headD '#' nl.2
  have hpa_head : p.path = [] ∨ p.path.headD ' ' = '/' := by
    by_cases he : p.path = []
    · exact Or.inl he
    · right
      rw [hpath_eq] at he ⊢
      rcases hc1 with h1 | h1
      · exact absurd h1 he
      · rw [h1]
        have hf1_ne : (splitOnFirst '#' nl.2).1 ≠ [] := by
          intro hz
          apply he
          rw [hz]
          rfl
        rcases hc2 with h2 | h2
        · exact absurd h2 hf1_ne
        · rw [h2]
          have hA_ne : nl.2 ≠ [] := by
            intro hz
            apply hf1_ne
            rw [hz]
            rfl
          rcases hrest with h3 | h3
          · exact absurd h3 hA_ne
          · simp only [isNetlocDelim, decide_eq_true_eq] at h3
            have hmem : nl.2.headD ' ' ∈
                (splitOnFirst '?' (splitOnFirst '#' nl.2).1).1 := by
              rw [← h2, ← h1]
              exact headD_mem he
            rcases h3 with h3 | h3 | h3
            · exact h3
            · exfalso
              rw [h3] at hmem
              exact splitOnFirst_fst_not_sep '?' _ hmem
            · exfalso
              rw [h3] at hmem
              have h4 := splitOnFirst_fst_subset '?' _ _ hmem
              exact splitOnFirst_fst_not_sep '#' nl.2 h4
  obtain ⟨ln, hln⟩ : ∃ x, x = p.netloc.map pyLower := ⟨_, rfl⟩
  obtain ⟨rp0, hrp0⟩ : ∃ x, x = rstripSlash p.path := ⟨_, rfl⟩
  obtain ⟨lrp, hlrp⟩ : ∃ x, x = rp0.map pyLower := ⟨_, rfl⟩
  have hln_ne : ln ≠ [] := by
    rw [hln]
    simp [hn]
  have hln_delim : ∀ x ∈ ln, isNetlocDelim x = false := by
    rw [hln]
    intro x hx
    obtain ⟨y, hy, rfl⟩ := List.mem_map.mp hx
    rw [netlocDelim_pyLower]
    exact hn_delim y hy
  have hbl : ('[' ∈ ln) ↔ ('[' ∈ p.netloc) := by
    rw [hln]
    exact mem_map_pyLower_special _ (by decide) (by decide)
  have hbr2 : (']' ∈ ln) ↔ (']' ∈ p.netloc) := by
    rw [hln]
    exact mem_map_pyLower_special _ (by decide) (by decide)
  have hln_br : ¬ (('[' ∈ ln ∧ ']' ∉ ln) ∨ (']' ∈ ln ∧ '[' ∉ ln)) := by
    rw [hbl, hbr2]
    exact hn_br
  have hln_safe : ∀ x ∈ ln, isUnsafeUrlByte x = false := by
    rw [hln]
    intro x hx
    obtain ⟨y, hy, rfl⟩ := List.mem_map.mp hx
    rw [unsafe_pyLower]
    exact sanitize_safe u y (hn_sub y hy)
  have hln_low : ln.map pyLower = ln := by
    rw [hln]
    exact map_pyLower_idem _
  have hrp0_sub : ∀ x ∈ rp0, x ∈ p.path := by
    rw [hrp0]
    exact fun x hx => (rstripSlash_pref _).subset hx
  have hpa_sub : ∀ x ∈ p.path, x ∈ sanitizeUrl u := by
    rw [hpath_eq]
    exact hq1_sub
  have hlrp_head : lrp = [] ∨ lrp.headD ' ' = '/' := by
    by_cases hz : rp0 = []
    · left
      rw [hlrp, hz]
      rfl
    · right
      rw [hlrp, headD_map_pyLower ' ' hz]
      obtain ⟨tl, htl⟩ := rstripSlash_pref p.path
      rw [← hrp0] at htl
      have hh : rp0.headD ' ' = p.path.headD ' ' := by
        rw [← htl, headD_append_left tl hz]
      rcases hpa_head with h | h
      · exfalso
        apply hz
        rw [hrp0, h]
        rfl
      · rw [hh, h]
        decide
  have hlrp_last : lrp = [] ∨ ¬ lrp.reverse.headD 'x' = '/' := by
    by_cases hz : rp0 = []
    · left
      rw [hlrp, hz]
      rfl
    · right
      rw [hlrp, ← List.map_reverse, headD_map_pyLower 'x' (by simpa using hz)]
      intro hq2
      have h5 := (pyLower_eq_iff_special (by decide) (by decide)).mp hq2
      rcases rstripSlash_last p.path with h | h
      · exact hz (hrp0.trans h)
      · rw [← hrp0] at h
        exact h h5
  have hlrp_no_qm : '?' ∉ lrp := by
    intro hm
    rw [hlrp, mem_map_pyLower_special rp0 (by decide) (by decide)] at hm
    exact urlparse_path_no_qmark hp (hrp0_sub _ hm)
  have hlrp_no_hash : '#' ∉ lrp := by
    intro hm
    rw [hlrp, mem_map_pyLower_special rp0 (by decide) (by decide)] at hm
    exact urlparse_path_no_hash hp (hrp0_sub _ hm)
  have hlrp_no_semi : ';' ∉ lrp := by
    intro hm
    rw [hlrp, mem_map_pyLower_special rp0 (by decide) (by decide)] at hm
    exact hsemi (sanitize_subset u _ (hpa_sub _ (hrp0_sub _ hm)))
  have hlrp_safe : ∀ x ∈ lrp, isUnsafeUrlByte x = false := by
    rw [hlrp]
    intro x hx
    obtain ⟨y, hy, rfl⟩ := List.mem_map.mp hx
    rw [unsafe_pyLower]
    exact sanitize_safe u y (hpa_sub y (hrp0_sub y hy))
  have hlrp_low : lrp.map pyLower = lrp := by
    rw [hlrp]
    exact map_pyLower_idem _
  have hq_nohash : '#' ∉ p.query := urlparse_query_no_hash hp
  have hq_safe : ∀ x ∈ p.query, isUnsafeUrlByte x = false :=
    fun x hx => sanitize_safe u x (hq_sub x hx)
  have hbase : (rstripSlash (p.scheme ++ ("://").toList ++ p.netloc ++ p.path)).map pyLower
      = p.scheme ++ ("://").toList ++ ln ++ lrp := by
    have hlast : ¬ (p.scheme ++ ("://").toList ++ p.netloc).reverse.headD 'x' = '/' := by
      rw [List.reverse_append, headD_append_left _ (by simpa using hn)]
      have hm : p.netloc.reverse.headD 'x' ∈ p.netloc := by
        have h1 := headD_mem (l := p.netloc.reverse) (d := 'x') (by simpa using hn)
        simpa using h1
      exact not_delim_ne_slash (hn_delim _ hm)
    have hmt : (("://").toList).map pyLower = ("://").toList := by decide
    rw [rstrip_append p.path hlast, List.map_append, List.map_append, List.map_append,
        hs_low, hmt, ← hrp0, ← hlrp, ← hln]
  by_cases hr : codeRetains p = true
  · obtain ⟨hq_ne, hdisj⟩ := (codeRetains_iff p).mp hr
    have hkeep : dynamicExts.any (fun ext => ext.isSuffixOf lrp) = true ∨
        meaningfulParams.any (fun pr => strContains p.query pr) = true := by
      rcases hdisj with h | h
      · left
        rw [List.any_eq_true] at h ⊢
        obtain ⟨ext, hmemx, hsuf⟩ := h
        refine ⟨ext, hmemx, ?_⟩
        obtain ⟨hext_ne, hext_last, hext_low⟩ := dynExt_facts ext hmemx
        rw [List.isSuffixOf_iff_suffix] at hsuf ⊢
        obtain ⟨a, ha⟩ := hsuf
        have hpl : ¬ p.path.reverse.headD 'x' = '/' := by
          rw [← ha, List.reverse_append, headD_append_left _ (by simpa using hext_ne)]
          exact hext_last
        have hrfix : rp0 = p.path := by
          rw [hrp0]
          exact rstripSlash_eq_self hpl
        rw [hlrp, hrfix, ← ha, List.map_append, hext_low]
        exact ⟨a.map pyLower, rfl⟩
      · exact Or.inr h
    refine ⟨p.scheme ++ ("://").toList ++ ln ++ lrp ++ '?' :: p.query, ?_, ?_⟩
    · simp only [normalize_url, hp]
      rw [if_pos hr, hbase]
    · exact normalize_url_fixed_q p.scheme ln lrp p.query hs hs_head hs_all hs_low hs_chars
        hln_ne hln_delim hln_br hln_safe hln_low hlrp_head hlrp_last hlrp_no_qm
        hlrp_no_hash hlrp_no_semi hlrp_safe hlrp_low hq_ne hq_nohash hq_safe hkeep
  · refine ⟨p.scheme ++ ("://").toList ++ ln ++ lrp, ?_, ?_⟩
    · simp only [normalize_url, hp]
      rw [if_neg hr, hbase]
    · exact normalize_url_fixed_noq p.scheme ln lrp hs hs_head hs_all hs_low hs_chars
        hln_ne hln_delim hln_br hln_safe hln_low hlrp_head hlrp_last hlrp_no_qm
        hlrp_no_hash hlrp_no_semi hlrp_safe hlrp_low

/-- Witness for the amended C7 theorem at the concrete URL
`http://UCI.edu/Path/?id=3`, whose parse has a non-empty scheme and
netloc and which contains no `;`. -/
theorem C7_normalize_idempotent_witness :
    ∃ v, normalize_url (("http://UCI.edu/Path/?id=3").toList) = some v ∧
      normalize_url v = some v :=
  C7_normalize_idempotent (("http://UCI.edu/Path/?id=3").toList)
    ⟨("http").toList, ("UCI.edu").toList, ("/Path/").toList, [],
     ("id=3").toList, []⟩
    (by decide) (by decide) (by decide) (by decide)
